import Mathlib

/-!
Verification of the reconciliation engine of `aptly-rest-tools`.

This file gives a shallow embedding, in Lean 4, of the data model and the
reconciliation algorithm of the repository (crates `sync2aptly`,
`aptly-rest` and the legacy engine in `obs2aptly`), together with theorems
that settle the claims of the specification against that embedding.

Modelling conventions, chosen once and used throughout:

* `PackageVersion` (from the external `debian_packaging` crate) is modelled
  as an abstract type `V` carrying a `LinearOrder` instance: the crate
  exposes a total order (Debian version comparison) and the engine only
  ever consumes the order.  Witnesses instantiate `V := Nat`.
* `String` models Rust `String`/`PackageName`; the byte-lexicographic order
  of Rust agrees with the codepoint-lexicographic order of Lean on UTF-8.
* `BTreeMap` iteration is modelled as a sorted association list,
  `BTreeSet` as a sorted deduplicated list; `HashMap`/`HashSet` iteration
  order is unspecified in Rust, so it is passed around explicitly
  (`archOrder` parameters, `grouping` parameters).
* `LazyVersion` is modelled as its resolved value: the engine claims under
  study all condition on successful runs, where every lazy version is
  forced successfully.
* Fallible Rust functions return `Except SyncErr`; a Rust `panic!`
  (`unwrap` on an empty iterator, out-of-bounds index) is modelled as the
  distinguished error value `SyncErr.panicked`.
* `OriginLocation` is modelled as its list of path segments.
-/

namespace AptlyRestTools

/-- Three-way comparison induced by a linear order, mirroring `Ord::cmp`. -/
def cmpOfLinear {α : Type} [LinearOrder α] (a b : α) : Ordering :=
  if a < b then .lt else if a = b then .eq else .gt

/-- Lexicographic strict order on character lists.  Rust compares `String`s
byte-lexicographically; on UTF-8 encodings that agrees with
codepoint-lexicographic comparison, which this computes. -/
def charListLt : List Char → List Char → Bool
  | [], [] => false
  | [], _ :: _ => true
  | _ :: _, [] => false
  | c :: cs, d :: ds => if c < d then true else if d < c then false else charListLt cs ds

/-- Rust's `Ord` on `String`, as a strict-less test. -/
def strLt (a b : String) : Bool :=
  charListLt a.data b.data

/-- Rust's `Ord::cmp` on `String`. -/
def strCmp (a b : String) : Ordering :=
  if strLt a b then .lt else if strLt b a then .gt else .eq

/-- Rust's `str::ends_with`. -/
def strEndsWith (s suffix : String) : Bool :=
  suffix.data.isSuffixOf s.data

/-- Embeds `aptly_rest::key::AptlyKey`: the target-side package identity.  Field
order matters: the Rust `#[derive(Ord)]` compares fields in declaration
order, which is `package`, `version`, `arch`, `hash`. -/
structure AptlyKey (V : Type) where
  package : String
  version : V
  arch : String
  hash : String
deriving DecidableEq

/-- The derived total order on `AptlyKey`: lexicographic in Rust field
declaration order `(package, version, arch, hash)`. -/
def AptlyKey.cmp {V : Type} [LinearOrder V] (a b : AptlyKey V) : Ordering :=
  (strCmp a.package b.package).then
    ((cmpOfLinear a.version b.version).then
      ((strCmp a.arch b.arch).then (strCmp a.hash b.hash)))

/-- Embeds `AptlyKey::is_binary`: every architecture other than `"source"`. -/
def AptlyKey.isBinary {V : Type} (k : AptlyKey V) : Bool :=
  k.arch ≠ "source"

/-- Embeds `AptlyKey::is_source`. -/
def AptlyKey.isSource {V : Type} (k : AptlyKey V) : Bool :=
  k.arch = "source"

/-- Insertion into a `BTreeSet<AptlyKey>` modelled on the sorted key list:
an already-present (equal) key is kept, otherwise the key goes to its
ordered position. -/
def insertKey {V : Type} [LinearOrder V] (k : AptlyKey V) :
    List (AptlyKey V) → List (AptlyKey V)
  | [] => [k]
  | x :: xs =>
    match AptlyKey.cmp k x with
    | .lt => k :: x :: xs
    | .eq => x :: xs
    | .gt => x :: insertKey k xs

/-- Embeds `sync2aptly::AptlyPackage`: the set of target keys sharing one
(architecture-or-source, name), as the sorted list of a `BTreeSet`. -/
structure AptlyPackage (V : Type) where
  keys : List (AptlyKey V)
deriving DecidableEq

/-- Embeds `AptlyPackage::push` (a `BTreeSet::insert`). -/
def AptlyPackage.push {V : Type} [LinearOrder V] (p : AptlyPackage V)
    (k : AptlyKey V) : AptlyPackage V :=
  ⟨insertKey k p.keys⟩

/-- Embeds `AptlyPackage::newest`: `keys().max_by_key(|key| key.version())`.
Rust's `max_by_key` returns the last of several equally-maximal elements,
hence the fold keeps the accumulator only on strict decrease. -/
def AptlyPackage.newest {V : Type} [LinearOrder V] (p : AptlyPackage V) :
    Option (AptlyKey V) :=
  match p.keys with
  | [] => none
  | k :: ks => some (ks.foldl (fun acc x => if x.version < acc.version then acc else x) k)

/-- Embeds `sync2aptly::OriginDeb`: one observed binary build from the origin.
The `LazyVersion` is modelled as its resolved value. -/
structure OriginDeb (V : Type) where
  package : String
  version : V
  architecture : String
  location : List String
  fromSource : String
  aptlyHash : String
deriving DecidableEq

/-- Embeds `sync2aptly::OriginPackage`: every known build of one
(architecture, package name), in insertion (`Vec::push`) order. -/
structure OriginPackage (V : Type) where
  debs : List (OriginDeb V)
deriving DecidableEq

/-- Embeds `OriginPackage::push`. -/
def OriginPackage.push {V : Type} (p : OriginPackage V) (d : OriginDeb V) :
    OriginPackage V :=
  ⟨p.debs ++ [d]⟩

/-- Embeds `OriginPackage::newest`: a fold that starts from `debs[0]` and replaces
the candidate only on strictly greater version, so the first of several
equally-new builds wins; `None` models the `"No debs in package"` error. -/
def OriginPackage.newest {V : Type} [LinearOrder V] (p : OriginPackage V) :
    Option (OriginDeb V) :=
  match p.debs with
  | [] => none
  | d :: ds => some (ds.foldl (fun n x => if n.version < x.version then x else n) d)

/-- Embeds `aptly_rest::dsc::DscFile`: one checksummed file record of a source
package. -/
structure DscFile where
  name : String
  size : Nat
  md5 : String
  sha1 : String
  sha256 : String
deriving DecidableEq

/-- Embeds `sync2aptly::OriginDsc`: one observed source package. -/
structure OriginDsc (V : Type) where
  package : String
  version : V
  dscLocation : List String
  files : List DscFile
  aptlyHash : String
deriving DecidableEq

/-- Embeds `sync2aptly::OriginSource`: every known source build of one name. -/
structure OriginSource (V : Type) where
  sources : List (OriginDsc V)
deriving DecidableEq

/-- Embeds `OriginSource::push`. -/
def OriginSource.push {V : Type} (s : OriginSource V) (d : OriginDsc V) :
    OriginSource V :=
  ⟨s.sources ++ [d]⟩

/-- Embeds `OriginSource::newest`: `max_by_key` over the version, last maximal
element wins as in Rust. -/
def OriginSource.newest {V : Type} [LinearOrder V] (s : OriginSource V) :
    Option (OriginDsc V) :=
  match s.sources with
  | [] => none
  | d :: ds => some (ds.foldl (fun acc x => if x.version < acc.version then acc else x) d)

/-- Failure of a fallible engine step: `msg` models a returned
`color_eyre` error, `panicked` models a Rust panic (`unwrap`/indexing). -/
inductive SyncErr where
  | msg (s : String)
  | panicked
deriving DecidableEq

/-- Embeds `sync2aptly::MatchPoolPackageBy`; `keyOnly` is the `Default`. -/
inductive MatchPoolPackageBy where
  | keyOnly
  | keyOrFilename
deriving DecidableEq

/-- Embeds `sync2aptly::SyncAction`. -/
inductive SyncAction (V : Type) where
  | addDeb (package : String) (aptlyHash : String) (location : List String)
      (matchExisting : MatchPoolPackageBy)
  | addDsc (package : String) (aptlyHash : String) (dscLocation : List String)
      (referencedLocations : List (List String))
  | addPoolPackage (key : AptlyKey V)
  | removeAptly (key : AptlyKey V)
deriving DecidableEq

/-- Embeds `OriginLocation::file_name`: the final path segment. -/
def locFileName (loc : List String) : Option String :=
  loc.getLast?

/-- Embeds `OriginLocation::parent`: drop the final path segment. -/
def locParent (loc : List String) : Option (List String) :=
  match loc with
  | [] => none
  | _ :: _ => some loc.dropLast

/-- Embeds `SyncActions::add_deb_with_options`: the `AddDeb` action recorded for
an origin build. -/
def addDebAction {V : Type} (d : OriginDeb V) (matchExisting : MatchPoolPackageBy) :
    SyncAction V :=
  .addDeb d.package d.aptlyHash d.location matchExisting

/-- Embeds `SyncActions::add_dsc`: records an `AddDsc` action whose referenced
locations are every file of the `.dsc` other than the `.dsc` itself,
resolved against the parent directory; fails on a location without a
parent or file name. -/
def addDscAction {V : Type} (d : OriginDsc V) : Except SyncErr (SyncAction V) :=
  match locParent d.dscLocation, locFileName d.dscLocation with
  | some parent, some filename =>
    .ok (.addDsc d.package d.aptlyHash d.dscLocation
      ((d.files.filter (fun f => f.name ≠ filename)).map (fun f => parent ++ [f.name])))
  | _, _ => .error (.msg "Invalid .dsc path")

/-- Embeds `BinaryDepSyncer::add`: publish the newest origin build. -/
def BinaryDepSyncer.add {V : Type} [LinearOrder V] (origin : OriginPackage V) :
    Except SyncErr (List (SyncAction V)) :=
  match origin.newest with
  | none => .error (.msg "No debs in package")
  | some n => .ok [addDebAction n .keyOnly]

/-- Embeds `BinaryDepSyncer::sync`: warn (no action) on origin older than aptly,
no action on matching hash, otherwise remove every aptly key of the name
and add the newest origin build. -/
def BinaryDepSyncer.sync {V : Type} [LinearOrder V] (origin : OriginPackage V)
    (aptly : AptlyPackage V) : Except SyncErr (List (SyncAction V)) :=
  match origin.newest with
  | none => .error (.msg "No debs in package")
  | some originNewest =>
    match aptly.newest with
    | none => .error (.msg "Aptly package without keys")
    | some aptlyNewest =>
      if originNewest.version < aptlyNewest.version then
        .ok []
      else if originNewest.aptlyHash ≠ aptlyNewest.hash then
        .ok (aptly.keys.map SyncAction.removeAptly ++ [addDebAction originNewest .keyOnly])
      else
        .ok []

/-- Embeds `BinaryInDepSyncer::add`: publish the newest origin build, allowing
pool reuse by filename. -/
def BinaryInDepSyncer.add {V : Type} [LinearOrder V] (origin : OriginPackage V) :
    Except SyncErr (List (SyncAction V)) :=
  match origin.newest with
  | none => .error (.msg "No debs in package")
  | some n => .ok [addDebAction n .keyOrFilename]

/-- One entry of the `origin_by_version` grouping of
`BinaryInDepSyncer::sync`: a `(from_source, version)` key together with the
origin builds carrying that key, in origin order. -/
abbrev GroupList (V : Type) : Type :=
  List ((String × V) × List (OriginDeb V))

/-- Predicate: `groups` is a possible iteration of the `HashMap` that
`BinaryInDepSyncer::sync` folds `origin_by_version` into, for the deb list
`debs`: distinct keys, each group holding exactly the debs with its key in
origin order, every deb represented. -/
def isGroupingOf {V : Type} [DecidableEq V] (debs : List (OriginDeb V))
    (groups : GroupList V) : Prop :=
  (groups.map Prod.fst).Nodup ∧
  (∀ g ∈ groups,
    g.2 = debs.filter (fun d => decide (d.fromSource = g.1.1) && decide (d.version = g.1.2)) ∧
    g.2 ≠ []) ∧
  (∀ d ∈ debs, (d.fromSource, d.version) ∈ groups.map Prod.fst)

/-- The grouping obtained by iterating the keys in first-appearance order;
one concrete valid iteration order of the Rust `HashMap`. -/
def canonicalGrouping {V : Type} [DecidableEq V] (p : OriginPackage V) : GroupList V :=
  ((p.debs.map (fun d => (d.fromSource, d.version))).dedup).map
    (fun k => (k, p.debs.filter (fun d => decide (d.fromSource = k.1) && decide (d.version = k.2))))

/-- The body of `BinaryInDepSyncer::sync`'s per-group loop:
`debs.iter().find_map(|p| aptly.keys().find(|a| a.hash() == p.aptly_hash))`. -/
def findHashMatch {V : Type} (keys : List (AptlyKey V)) (debs : List (OriginDeb V)) :
    Option (AptlyKey V) :=
  debs.findSome? (fun p => keys.find? (fun a => a.hash == p.aptlyHash))

/-- One iteration of the `origin_by_version` loop of
`BinaryInDepSyncer::sync`: returns the keys pushed onto `keep_in_aptly`
and the actions appended, for one group. -/
def indepGroupStep {V : Type} [LinearOrder V] (aptly : AptlyPackage V)
    (g : (String × V) × List (OriginDeb V)) :
    List (AptlyKey V) × List (SyncAction V) :=
  match findHashMatch aptly.keys g.2 with
  | some found => ([found], [])
  | none =>
    match g.2 with
    | [] => ([], [])
    | d0 :: _ =>
      if aptly.keys.all (fun a => decide (a.version < d0.version)) then
        ([], [addDebAction d0 .keyOrFilename])
      else
        match aptly.keys.find? (fun a => decide (a.version = d0.version)) with
        | some found => ([found], [])
        | none => ([], [])

/-- Embeds `BinaryInDepSyncer::sync`, parameterised over the `HashMap` iteration
`groups`: process every `(from_source, version)` group, then remove every
aptly key that was not kept and is older than the newest origin build. -/
def BinaryInDepSyncer.sync {V : Type} [LinearOrder V] (groups : GroupList V)
    (origin : OriginPackage V) (aptly : AptlyPackage V) :
    Except SyncErr (List (SyncAction V)) :=
  let steps := groups.map (indepGroupStep aptly)
  let keep := (steps.map Prod.fst).flatten
  let adds := (steps.map Prod.snd).flatten
  match origin.newest with
  | none => .error (.msg "No debs in package")
  | some originNewest =>
    .ok (adds ++
      (aptly.keys.filter
        (fun a => !(decide (a ∈ keep)) && decide (a.version < originNewest.version))).map
        SyncAction.removeAptly)

/-- Embeds `sync2aptly`'s `SourceSyncer::add`: publish the newest origin source. -/
def SourceSyncer.add {V : Type} [LinearOrder V] (origin : OriginSource V) :
    Except SyncErr (List (SyncAction V)) :=
  match origin.newest with
  | none => .error (.msg "No sources in package")
  | some d => (addDscAction d).map (fun a => [a])

/-- Embeds `sync2aptly`'s `SourceSyncer::sync`: compare the newest origin source
against the first aptly key (`aptly.keys().next().unwrap()`, a panic on an
empty group); swap on hash mismatch.  Note: this version performs no
ambiguity check over multiple origin sources. -/
def SourceSyncer.sync {V : Type} [LinearOrder V] (origin : OriginSource V)
    (aptly : AptlyPackage V) : Except SyncErr (List (SyncAction V)) :=
  match origin.newest with
  | none => .error (.msg "No sources in package")
  | some d =>
    match aptly.keys.head? with
    | none => .error .panicked
    | some a =>
      if d.aptlyHash ≠ a.hash then
        (addDscAction d).map (fun act => [SyncAction.removeAptly a, act])
      else
        .ok []

/-- Embeds `obs2aptly`'s legacy `SourceSyncer::sync`: takes `obs.sources[0]`
(a panic on an empty list), then `ensure!`s that every other source shares
its content hash — the "multiple sources of different hashes" hard error —
before comparing against the first aptly key. -/
def ObsSourceSyncer.sync {V : Type} [LinearOrder V] (origin : OriginSource V)
    (aptly : AptlyPackage V) : Except SyncErr (List (SyncAction V)) :=
  match origin.sources with
  | [] => .error .panicked
  | d :: rest =>
    if rest.all (fun s => s.aptlyHash == d.aptlyHash) then
      match aptly.keys.head? with
      | none => .error .panicked
      | some a =>
        if d.aptlyHash ≠ a.hash then
          (addDscAction d).map (fun act => [SyncAction.removeAptly a, act])
        else
          .ok []
    else
      .error (.msg "Multiple sources of different hashes for a single package")

/-- The two methods of the `Syncer` trait, instantiated per package class. -/
structure SyncerFns (V O : Type) where
  add : String → O → Except SyncErr (List (SyncAction V))
  sync : String → O → AptlyPackage V → Except SyncErr (List (SyncAction V))

/-- One visit of the merge-join walk of `sync_packages`: which strategy
method was called (or which wholesale removal was emitted) for one package
name. -/
inductive WalkEvent (V O : Type) where
  | add (name : String) (origin : O)
  | sync (name : String) (origin : O) (aptly : AptlyPackage V)
  | removeAll (name : String) (aptly : AptlyPackage V)
deriving DecidableEq

/-- The name a walk event visits. -/
def WalkEvent.name {V O : Type} : WalkEvent V O → String
  | .add n _ => n
  | .sync n _ _ => n
  | .removeAll n _ => n

/-- The visit trace of `sync2aptly::sync_packages`: a sorted merge-join of
the two name-keyed iterators.  `origin < aptly` name means origin-only
(`add`), equal names mean both (`sync`), `origin > aptly` name means
aptly-only (remove every key of the group). -/
def syncWalk {V O : Type} :
    List (String × O) → List (String × AptlyPackage V) → List (WalkEvent V O)
  | [], [] => []
  | [], (a, av) :: as' => .removeAll a av :: syncWalk [] as'
  | (o, ov) :: os, [] => .add o ov :: syncWalk os []
  | (o, ov) :: os, (a, av) :: as' =>
    if strLt o a then
      .add o ov :: syncWalk os ((a, av) :: as')
    else if o = a then
      .sync o ov av :: syncWalk os as'
    else
      .removeAll a av :: syncWalk ((o, ov) :: os) as'
termination_by os as' => os.length + as'.length

/-- The actions one walk event contributes: `add`/`sync` call the class
strategy, an aptly-only name removes every key of its group. -/
def eventActions {V O : Type} (S : SyncerFns V O) :
    WalkEvent V O → Except SyncErr (List (SyncAction V))
  | .add n ov => S.add n ov
  | .sync n ov av => S.sync n ov av
  | .removeAll _ av => .ok (av.keys.map SyncAction.removeAptly)

/-- Sequential interpretation of a walk trace: actions of each event in
order, stopping at the first error. -/
def runEvents {V O : Type} (S : SyncerFns V O) :
    List (WalkEvent V O) → Except SyncErr (List (SyncAction V))
  | [] => .ok []
  | e :: es => do
    let h ← eventActions S e
    let t ← runEvents S es
    .ok (h ++ t)

/-- Embeds `sync2aptly::sync_packages`, directly: advance two peekable cursors,
calling the class strategy and emitting removals as the names compare. -/
def syncPackages {V O : Type} (S : SyncerFns V O) :
    List (String × O) → List (String × AptlyPackage V) →
    Except SyncErr (List (SyncAction V))
  | [], [] => .ok []
  | [], (_, av) :: as' => do
    let t ← syncPackages S [] as'
    .ok (av.keys.map SyncAction.removeAptly ++ t)
  | (o, ov) :: os, [] => do
    let h ← S.add o ov
    let t ← syncPackages S os []
    .ok (h ++ t)
  | (o, ov) :: os, (a, av) :: as' =>
    if strLt o a then do
      let h ← S.add o ov
      let t ← syncPackages S os ((a, av) :: as')
      .ok (h ++ t)
    else if o = a then do
      let h ← S.sync o ov av
      let t ← syncPackages S os as'
      .ok (h ++ t)
    else do
      let t ← syncPackages S ((o, ov) :: os) as'
      .ok (av.keys.map SyncAction.removeAptly ++ t)
termination_by os as' => os.length + as'.length

/-- Lookup in an association list (a `BTreeMap`/`HashMap` access). -/
def alookup {β : Type} : List (String × β) → String → Option β
  | [], _ => none
  | (k, v) :: rest, n => if k = n then some v else alookup rest n

/-- Sorted-map update, modelling `BTreeMap::entry(k).or_default()` followed
by a mutation `f` of the entry: inserts `f dflt` at the ordered position
when the key is absent. -/
def mapUpdate {β : Type} (k : String) (f : β → β) (dflt : β) :
    List (String × β) → List (String × β)
  | [] => [(k, f dflt)]
  | (k', v) :: rest =>
    if strLt k k' then (k, f dflt) :: (k', v) :: rest
    else if k = k' then (k', f v) :: rest
    else (k', v) :: mapUpdate k f dflt rest

/-- Unordered-map update, modelling `HashMap::entry(k).or_default()`
followed by `f`: in-place update, or append on absence. -/
def hashUpdate {β : Type} (k : String) (f : β → β) (dflt : β) :
    List (String × β) → List (String × β)
  | [] => [(k, f dflt)]
  | (k', v) :: rest =>
    if k' = k then (k', f v) :: rest
    else (k', v) :: hashUpdate k f dflt rest

/-- Embeds `sync2aptly::AptlyContent` (the `repo` field, unused by the engine,
is omitted). -/
structure AptlyContent (V : Type) where
  binaryArch : List (String × List (String × AptlyPackage V))
  binaryIndep : List (String × AptlyPackage V)
  sources : List (String × AptlyPackage V)

/-- Embeds `AptlyContent::new_empty`. -/
def AptlyContent.newEmpty (V : Type) : AptlyContent V :=
  ⟨[], [], []⟩

/-- Embeds `AptlyContent::add_key`: binary keys partition by architecture with
`"all"` going to the arch-independent map, everything else by the
`"source"` test. -/
def AptlyContent.addKey {V : Type} [LinearOrder V] (c : AptlyContent V)
    (key : AptlyKey V) : AptlyContent V :=
  if key.isBinary then
    if key.arch = "all" then
      { c with binaryIndep := mapUpdate key.package (·.push key) ⟨[]⟩ c.binaryIndep }
    else
      { c with binaryArch :=
          hashUpdate key.arch (mapUpdate key.package (·.push key) ⟨[]⟩) [] c.binaryArch }
  else
    { c with sources := mapUpdate key.package (·.push key) ⟨[]⟩ c.sources }

/-- Embeds `AptlyContent::new_from_aptly`: fold `add_key` over the repo listing. -/
def buildAptlyContent {V : Type} [LinearOrder V] (keys : List (AptlyKey V)) :
    AptlyContent V :=
  keys.foldl AptlyContent.addKey (AptlyContent.newEmpty V)

/-- Embeds `sync2aptly::OriginContent`. -/
structure OriginContent (V : Type) where
  binaryArch : List (String × List (String × OriginPackage V))
  binaryIndep : List (String × OriginPackage V)
  sources : List (String × OriginSource V)

/-- The empty `OriginContent` (`Default`). -/
def OriginContent.newEmpty (V : Type) : OriginContent V :=
  ⟨[], [], []⟩

/-- Embeds `OriginContentBuilder::add_deb`. -/
def OriginContentBuilder.addDeb {V : Type} (c : OriginContent V) (deb : OriginDeb V) :
    OriginContent V :=
  if deb.architecture = "all" then
    { c with binaryIndep := mapUpdate deb.package (·.push deb) ⟨[]⟩ c.binaryIndep }
  else
    { c with binaryArch :=
        hashUpdate deb.architecture (mapUpdate deb.package (·.push deb) ⟨[]⟩) [] c.binaryArch }

/-- Embeds `OriginContentBuilder::add_dsc`. -/
def OriginContentBuilder.addDsc {V : Type} (c : OriginContent V) (dsc : OriginDsc V) :
    OriginContent V :=
  { c with sources := mapUpdate dsc.package (·.push dsc) ⟨[]⟩ c.sources }

/-- One call on an `OriginContentBuilder`. -/
inductive OriginItem (V : Type) where
  | deb (d : OriginDeb V)
  | dsc (d : OriginDsc V)

/-- Dispatch one builder call. -/
def originStep {V : Type} (c : OriginContent V) (i : OriginItem V) : OriginContent V :=
  match i with
  | .deb d => OriginContentBuilder.addDeb c d
  | .dsc d => OriginContentBuilder.addDsc c d

/-- An `OriginContentBuilder` run: fold the calls over the empty content. -/
def buildOriginContent {V : Type} (items : List (OriginItem V)) : OriginContent V :=
  items.foldl originStep (OriginContent.newEmpty V)

/-- The per-architecture name map of a content side, empty when the
architecture is absent (the boxed-empty-iterator normalisation in
`sync2aptly::sync`). -/
def getArchMap {α : Type} (m : List (String × List (String × α))) (arch : String) :
    List (String × α) :=
  (alookup m arch).getD []

/-- The `BinaryDepSyncer` as a strategy record. -/
def depSyncer (V : Type) [LinearOrder V] : SyncerFns V (OriginPackage V) :=
  ⟨fun _ o => BinaryDepSyncer.add o, fun _ o a => BinaryDepSyncer.sync o a⟩

/-- The `BinaryInDepSyncer` as a strategy record, given the `HashMap`
iteration order of each name's `origin_by_version` grouping. -/
def indepSyncer {V : Type} [LinearOrder V] (grouping : OriginPackage V → GroupList V) :
    SyncerFns V (OriginPackage V) :=
  ⟨fun _ o => BinaryInDepSyncer.add o,
   fun _ o a => BinaryInDepSyncer.sync (grouping o) o a⟩

/-- The `SourceSyncer` as a strategy record. -/
def srcSyncer (V : Type) [LinearOrder V] : SyncerFns V (OriginSource V) :=
  ⟨fun _ o => SourceSyncer.add o, fun _ o a => SourceSyncer.sync o a⟩

/-- One architecture's merge-join inside the per-architecture loop of
`sync2aptly::sync`. -/
def archStep {V : Type} [LinearOrder V] (origin : OriginContent V)
    (aptly : AptlyContent V) (arch : String) : Except SyncErr (List (SyncAction V)) :=
  syncPackages (depSyncer V)
    (getArchMap origin.binaryArch arch) (getArchMap aptly.binaryArch arch)

/-- The per-architecture loop of `sync2aptly::sync`, over the given
iteration order of the architectures `HashSet`. -/
def runArchList {V : Type} [LinearOrder V] (origin : OriginContent V)
    (aptly : AptlyContent V) : List String → Except SyncErr (List (SyncAction V))
  | [] => .ok []
  | arch :: rest => do
    let h ← archStep origin aptly arch
    let t ← runArchList origin aptly rest
    .ok (h ++ t)

/-- The architectures `HashSet` of `sync2aptly::sync`, as the deduplicated
union of both sides' architecture keys. -/
def archSet {V : Type} (origin : OriginContent V) (aptly : AptlyContent V) :
    List String :=
  (origin.binaryArch.map Prod.fst ++ aptly.binaryArch.map Prod.fst).dedup

/-- The action-computation phase of `sync2aptly::sync` (everything up to
the pool-reuse post-pass): per-architecture binaries in `archOrder`, then
arch-independent binaries, then sources.  `archOrder` and `grouping` make
explicit the iteration orders Rust draws from `HashSet`/`HashMap`. -/
def engineSync {V : Type} [LinearOrder V] (origin : OriginContent V)
    (aptly : AptlyContent V) (archOrder : List String)
    (grouping : OriginPackage V → GroupList V) :
    Except SyncErr (List (SyncAction V)) := do
  let bin ← runArchList origin aptly archOrder
  let indep ← syncPackages (indepSyncer grouping) origin.binaryIndep aptly.binaryIndep
  let src ← syncPackages (srcSyncer V) origin.sources aptly.sources
  .ok (bin ++ indep ++ src)

/-- An `aptly_rest::api::packages::Package` as the pool pass consumes it:
its key, plus what the filename test inspects (a binary's filename, or a
source's SHA256-checksummed file names). -/
inductive PoolPackage (V : Type) where
  | source (key : AptlyKey V) (sha256Files : List String)
  | binary (key : AptlyKey V) (filename : String)
deriving DecidableEq

/-- Embeds `Package::key`. -/
def PoolPackage.key {V : Type} : PoolPackage V → AptlyKey V
  | .source k _ => k
  | .binary k _ => k

/-- The filename test of `find_matching_package`: a source matches when
some of its SHA256 files is a `.dsc` equal to the filename, a binary when
its filename is equal. -/
def PoolPackage.matchesFilename {V : Type} (filename : String) : PoolPackage V → Bool
  | .source _ files => files.any (fun f => strEndsWith f ".dsc" && f == filename)
  | .binary _ f => f == filename

/-- Embeds `sync2aptly::PoolPackagesByName`: the pool query result, grouped by
package name. -/
abbrev PoolPackagesByName (V : Type) : Type :=
  List (String × List (PoolPackage V))

/-- Embeds `PoolPackagesByName::find_matching_package`: prefer a same-name
same-hash pool package; otherwise a same-filename package is only accepted
under the `KeyOrFilename` policy, and is a hard error under any other. -/
def findMatchingPackage {V : Type} (pools : PoolPackagesByName V) (package : String)
    (aptlyHash : String) (location : List String)
    (matchExisting : MatchPoolPackageBy) : Except SyncErr (Option (AptlyKey V)) :=
  match alookup pools package with
  | none => .ok none
  | some packages =>
    match packages.find? (fun m => m.key.hash == aptlyHash) with
    | some existingWithHash => .ok (some existingWithHash.key)
    | none =>
      match locFileName location with
      | none => .error (.msg "Invalid location")
      | some filename =>
        match packages.find? (PoolPackage.matchesFilename filename) with
        | some existingWithFilename =>
          if matchExisting = MatchPoolPackageBy.keyOrFilename then
            .ok (some existingWithFilename.key)
          else
            .error (.msg "Package already exists with different key")
        | none => .ok none

/-- The per-action body of `SyncActions::reuse_existing_pool_packages`:
an `AddDeb` is matched under its own recorded policy, an `AddDsc` always
under `KeyOnly`; a match rewrites the action to `AddPoolPackage`. -/
def reuseOne {V : Type} (pools : PoolPackagesByName V) (action : SyncAction V) :
    Except SyncErr (SyncAction V) :=
  match action with
  | .addDeb package aptlyHash location matchExisting =>
    (findMatchingPackage pools package aptlyHash location matchExisting).map
      (fun found =>
        match found with
        | some key => .addPoolPackage key
        | none => .addDeb package aptlyHash location matchExisting)
  | .addDsc package aptlyHash dscLocation referencedLocations =>
    (findMatchingPackage pools package aptlyHash dscLocation
        MatchPoolPackageBy.keyOnly).map
      (fun found =>
        match found with
        | some key => .addPoolPackage key
        | none => .addDsc package aptlyHash dscLocation referencedLocations)
  | other => .ok other

/-- Embeds `SyncActions::reuse_existing_pool_packages`: rewrite each pending
action in place, stopping at the first error. -/
def reuseExistingPoolPackages {V : Type} (pools : PoolPackagesByName V) :
    List (SyncAction V) → Except SyncErr (List (SyncAction V))
  | [] => .ok []
  | a :: rest => do
    let h ← reuseOne pools a
    let t ← reuseExistingPoolPackages pools rest
    .ok (h :: t)

/-- UTF-8 encoding of one character (what `str::as_bytes` exposes). -/
def charUtf8Bytes (c : Char) : List Nat :=
  let n := c.toNat
  if n < 128 then
    [n]
  else if n < 2048 then
    [192 + n / 64, 128 + n % 64]
  else if n < 65536 then
    [224 + n / 4096, 128 + n / 64 % 64, 128 + n % 64]
  else
    [240 + n / 262144, 128 + n / 4096 % 64, 128 + n / 64 % 64, 128 + n % 64]

/-- The UTF-8 bytes of a string. -/
def strBytes (s : String) : List Nat :=
  s.data.flatMap charUtf8Bytes

/-- Embeds `u64::to_be_bytes`. -/
def beBytes8 (n : Nat) : List Nat :=
  [n / 2 ^ 56 % 256, n / 2 ^ 48 % 256, n / 2 ^ 40 % 256, n / 2 ^ 32 % 256,
   n / 2 ^ 24 % 256, n / 2 ^ 16 % 256, n / 2 ^ 8 % 256, n % 256]

/-- One step of 64-bit FNV-1a (the `fnv` crate's `Hasher::write` body):
xor the byte in, multiply by the FNV prime, wrap at 2^64. -/
def fnvByte (h b : Nat) : Nat :=
  (h ^^^ b) * 1099511628211 % 18446744073709551616

/-- Feed bytes into an FNV-1a state. -/
def fnvBytes (h : Nat) (bs : List Nat) : Nat :=
  bs.foldl fnvByte h

/-- The bytes one `DscFile` feeds into the hasher in
`TryFrom<&Dsc> for AptlyKey`: name, size (big-endian), then the three
checksum hex strings. -/
def dscFileBytes (f : DscFile) : List Nat :=
  strBytes f.name ++ beBytes8 f.size ++ strBytes f.md5 ++ strBytes f.sha1 ++
    strBytes f.sha256

/-- Ordered insertion by basename (placed before the first strictly
greater name, so equal names keep input order). -/
def fileInsert (f : DscFile) : List DscFile → List DscFile
  | [] => [f]
  | g :: gs => if strLt g.name f.name then g :: fileInsert f gs else f :: g :: gs

/-- Sorting file records by basename: the iteration order of the
`BTreeMap<String, FileData>` that `Dsc::files` builds. -/
def fileSort : List DscFile → List DscFile
  | [] => []
  | f :: fs => fileInsert f (fileSort fs)

/-- The FNV-1a offset basis. -/
def fnvOffsetBasis : Nat := 14695981039346656037

/-- The content hash of a file record list: sort by basename (the
`BTreeMap` of `Dsc::files`), then fold 64-bit FNV-1a over each record's
fields (`TryFrom<&Dsc> for AptlyKey`). -/
def contentHash (files : List DscFile) : Nat :=
  fnvBytes fnvOffsetBasis ((fileSort files).flatMap dscFileBytes)

/-! ### Order facts about the embedded string comparison -/

theorem charListLt_irrefl (l : List Char) : charListLt l l = false := by
  induction l with
  | nil => rfl
  | cons c cs ih => simp [charListLt, ih]

theorem charListLt_eq_of_not_lt {l m : List Char} (h1 : charListLt l m = false)
    (h2 : charListLt m l = false) : l = m := by
  induction l generalizing m with
  | nil => cases m with
    | nil => rfl
    | cons d ds => simp [charListLt] at h1
  | cons c cs ih =>
    cases m with
    | nil => simp [charListLt] at h2
    | cons d ds =>
      rcases lt_trichotomy c d with hcd | hcd | hcd
      · simp [charListLt, hcd] at h1
      · subst hcd
        simp [charListLt] at h1 h2
        rw [ih h1 h2]
      · simp [charListLt, hcd, not_lt_of_gt hcd] at h2

theorem charListLt_cons_iff {c d : Char} {cs ds : List Char} :
    charListLt (c :: cs) (d :: ds) = true ↔ c < d ∨ (c = d ∧ charListLt cs ds = true) := by
  by_cases h1 : c < d
  · simp [charListLt, h1]
  · by_cases h2 : d < c
    · simp [charListLt, h1, h2]
      intro h
      exact absurd (h ▸ h2) (lt_irrefl _)
    · have : c = d := le_antisymm (le_of_not_lt h2) (le_of_not_lt h1)
      simp [charListLt, h1, h2, this]

theorem charListLt_trans {l m n : List Char} (h1 : charListLt l m = true)
    (h2 : charListLt m n = true) : charListLt l n = true := by
  induction l generalizing m n with
  | nil =>
    cases n with
    | nil =>
      cases m with
      | nil => exact h1
      | cons d ds => simp [charListLt] at h2
    | cons e es => simp [charListLt]
  | cons c cs ih =>
    cases m with
    | nil => simp [charListLt] at h1
    | cons d ds =>
      cases n with
      | nil => simp [charListLt] at h2
      | cons e es =>
        rw [charListLt_cons_iff] at h1 h2 ⊢
        rcases h1 with h1 | ⟨rfl, h1⟩
        · rcases h2 with h2 | ⟨rfl, h2⟩
          · exact Or.inl (lt_trans h1 h2)
          · exact Or.inl h1
        · rcases h2 with h2 | ⟨rfl, h2⟩
          · exact Or.inl h2
          · exact Or.inr ⟨rfl, ih h1 h2⟩

theorem strLt_irrefl (s : String) : strLt s s = false :=
  charListLt_irrefl s.data

theorem strLt_trans {a b c : String} (h1 : strLt a b = true) (h2 : strLt b c = true) :
    strLt a c = true :=
  charListLt_trans h1 h2

theorem strLt_eq_of_not_lt {a b : String} (h1 : strLt a b = false)
    (h2 : strLt b a = false) : a = b :=
  String.ext (charListLt_eq_of_not_lt h1 h2)

theorem strLt_asymm {a b : String} (h : strLt a b = true) : strLt b a = false := by
  cases hx : strLt b a
  · rfl
  · have := strLt_trans h hx
    rw [strLt_irrefl] at this
    cases this

theorem strLt_ne {a b : String} (h : strLt a b = true) : a ≠ b := by
  rintro rfl
  rw [strLt_irrefl] at h
  cases h

theorem strCmp_lt_of_lt {a b : String} (h : strLt a b = true) : strCmp a b = .lt := by
  simp [strCmp, h]

theorem strCmp_self (s : String) : strCmp s s = .eq := by
  simp [strCmp, strLt_irrefl]

theorem strCmp_eq_iff {a b : String} : strCmp a b = .eq ↔ a = b := by
  constructor
  · intro h
    unfold strCmp at h
    split at h
    · cases h
    · split at h
      · cases h
      · next h1 h2 =>
        have := charListLt_eq_of_not_lt (l := a.data) (m := b.data)
          (by simpa [strLt] using h1) (by simpa [strLt] using h2)
        exact String.ext this
  · rintro rfl; exact strCmp_self a

theorem cmpOfLinear_self {α : Type} [LinearOrder α] (a : α) : cmpOfLinear a a = .eq := by
  simp [cmpOfLinear]

theorem cmpOfLinear_eq_iff {α : Type} [LinearOrder α] {a b : α} :
    cmpOfLinear a b = .eq ↔ a = b := by
  constructor
  · intro h
    unfold cmpOfLinear at h
    split at h
    · cases h
    · split at h
      · assumption
      · cases h
  · rintro rfl; exact cmpOfLinear_self a

theorem ordering_then_eq_eq_iff {o p : Ordering} : o.then p = .eq ↔ o = .eq ∧ p = .eq := by
  cases o <;> simp [Ordering.then]

/-! ### Claim C5: the total order on package identity keys -/

/-- C5, counterexample.  The claim says the `AptlyKey` order compares
architecture first, so that a key with a smaller architecture string
orders before any key with a greater architecture string regardless of the
other fields.  The derived Rust order compares the `package` field first
(field declaration order is package, version, arch, hash): the key with
architecture `"amd64"` but package `"beta"` orders *after* the key with
architecture `"mipsel"` but package `"alpha"`. -/
theorem claim_C5_counterexample :
    strLt "amd64" "mipsel" = true ∧
    AptlyKey.cmp (⟨"beta", 1, "amd64", "aa"⟩ : AptlyKey ℕ) ⟨"alpha", 1, "mipsel", "bb"⟩ =
      Ordering.gt := by
  decide

/-- C5, amended: for every two package identity keys, the total order
compares the package name first, then the version (in the order of the
version type, Debian comparison in the implementation), then the
architecture, then the content hash, lexicographically field by field;
two keys compare equal exactly when all four fields coincide. -/
theorem claim_C5 {V : Type} [LinearOrder V] (a b : AptlyKey V) :
    (strLt a.package b.package = true → AptlyKey.cmp a b = .lt) ∧
    (a.package = b.package → a.version < b.version → AptlyKey.cmp a b = .lt) ∧
    (a.package = b.package → a.version = b.version → strLt a.arch b.arch = true →
      AptlyKey.cmp a b = .lt) ∧
    (a.package = b.package → a.version = b.version → a.arch = b.arch →
      strLt a.hash b.hash = true → AptlyKey.cmp a b = .lt) ∧
    (AptlyKey.cmp a b = .eq ↔ a = b) := by
  refine ⟨fun h => ?_, fun h1 h2 => ?_, fun h1 h2 h3 => ?_, fun h1 h2 h3 h4 => ?_, ?_⟩
  · simp [AptlyKey.cmp, strCmp, h, Ordering.then]
  · simp [AptlyKey.cmp, h1, h2, strCmp_self, cmpOfLinear, Ordering.then]
  · simp [AptlyKey.cmp, h1, h2, strCmp_self, cmpOfLinear_self, strCmp_lt_of_lt h3,
      Ordering.then]
  · simp [AptlyKey.cmp, h1, h2, h3, strCmp_self, cmpOfLinear_self, strCmp_lt_of_lt h4,
      Ordering.then]
  · rw [AptlyKey.cmp, ordering_then_eq_eq_iff, ordering_then_eq_eq_iff,
      ordering_then_eq_eq_iff, strCmp_eq_iff, strCmp_eq_iff, strCmp_eq_iff,
      cmpOfLinear_eq_iff]
    cases a
    cases b
    simp [AptlyKey.mk.injEq]

/-- C5, witness: the amended order at concrete keys — equal packages and
versions, the architecture decides. -/
theorem claim_C5_witness :
    AptlyKey.cmp (⟨"pkg", 3, "amd64", "ff"⟩ : AptlyKey ℕ) ⟨"pkg", 3, "mipsel", "00"⟩ =
      Ordering.lt :=
  (claim_C5 ⟨"pkg", 3, "amd64", "ff"⟩ ⟨"pkg", 3, "mipsel", "00"⟩).2.2.1 rfl rfl (by decide)

/-! ### Claim C2: the architecture-specific binary sync step -/

/-- C2: for the architecture-specific binary class, with both sides'
newest entries resolved: a strictly older origin emits nothing; equal
content hashes emit nothing; a version tie with differing hashes removes
every target key of the name and then adds the newest origin build. -/
theorem claim_C2 {V : Type} [LinearOrder V] (origin : OriginPackage V)
    (aptly : AptlyPackage V) (dn : OriginDeb V) (kn : AptlyKey V)
    (ho : origin.newest = some dn) (ha : aptly.newest = some kn) :
    (dn.version < kn.version → BinaryDepSyncer.sync origin aptly = .ok []) ∧
    (dn.aptlyHash = kn.hash → BinaryDepSyncer.sync origin aptly = .ok []) ∧
    (dn.version = kn.version → dn.aptlyHash ≠ kn.hash →
      BinaryDepSyncer.sync origin aptly =
        .ok (aptly.keys.map SyncAction.removeAptly ++
          [addDebAction dn MatchPoolPackageBy.keyOnly])) := by
  unfold BinaryDepSyncer.sync
  rw [ho, ha]
  refine ⟨fun h => ?_, fun h => ?_, fun hv hh => ?_⟩
  · simp [h]
  · simp [h]
  · simp [hv, hh]

/-- C2, witness: Scenario 4 — origin `foo/amd64/1.0/cccc` against target
`foo/amd64/1.0/aaaa` yields remove-then-add. -/
theorem claim_C2_witness :
    BinaryDepSyncer.sync (⟨[⟨"foo", 1, "amd64", ["pool", "foo.deb"], "foo-src", "cccc"⟩]⟩ :
        OriginPackage ℕ) ⟨[⟨"foo", 1, "amd64", "aaaa"⟩]⟩ =
      .ok [SyncAction.removeAptly ⟨"foo", 1, "amd64", "aaaa"⟩,
           SyncAction.addDeb "foo" "cccc" ["pool", "foo.deb"] MatchPoolPackageBy.keyOnly] := by
  have h := (claim_C2 (⟨[⟨"foo", 1, "amd64", ["pool", "foo.deb"], "foo-src", "cccc"⟩]⟩ :
      OriginPackage ℕ) ⟨[⟨"foo", 1, "amd64", "aaaa"⟩]⟩
    ⟨"foo", 1, "amd64", ["pool", "foo.deb"], "foo-src", "cccc"⟩
    ⟨"foo", 1, "amd64", "aaaa"⟩ rfl rfl).2.2 rfl (by decide)
  simpa [addDebAction] using h

/-! ### Claim C3: arch-independent removals stay below the newest origin build -/

/-- The version-maximising fold of `OriginPackage::newest` dominates its
accumulator and every list element. -/
theorem foldl_newest_version_le {V : Type} [LinearOrder V] (ds : List (OriginDeb V))
    (acc : OriginDeb V) :
    acc.version ≤ (ds.foldl (fun n x => if n.version < x.version then x else n) acc).version ∧
    ∀ d ∈ ds,
      d.version ≤ (ds.foldl (fun n x => if n.version < x.version then x else n) acc).version := by
  induction ds generalizing acc with
  | nil => simp
  | cons x ds ih =>
    have hle : acc.version ≤ (if acc.version < x.version then x else acc).version := by
      by_cases h : acc.version < x.version
      · simpa [h] using le_of_lt h
      · simp [h]
    have hxe : x.version ≤ (if acc.version < x.version then x else acc).version := by
      by_cases h : acc.version < x.version
      · simp [h]
      · simpa [h] using le_of_not_lt h
    refine ⟨le_trans hle (ih _).1, ?_⟩
    intro d hd
    rcases List.mem_cons.mp hd with rfl | hd
    · exact le_trans hxe (ih _).1
    · exact (ih _).2 d hd

/-- The result of `OriginPackage::newest` carries the maximal version of
the package's builds. -/
theorem newest_version_isMax {V : Type} [LinearOrder V] (p : OriginPackage V)
    (dn : OriginDeb V) (h : p.newest = some dn) : ∀ d ∈ p.debs, d.version ≤ dn.version := by
  obtain ⟨debs⟩ := p
  cases debs with
  | nil => simp [OriginPackage.newest] at h
  | cons d0 ds =>
    simp only [OriginPackage.newest, Option.some.injEq] at h
    intro d hd
    rcases List.mem_cons.mp hd with rfl | hmem
    · rw [← h]; exact (foldl_newest_version_le ds d).1
    · rw [← h]; exact (foldl_newest_version_le ds d0).2 d hmem

/-- The maximising fold of `OriginPackage::newest` yields the accumulator
or a list element. -/
theorem foldl_newest_mem {V : Type} [LinearOrder V] (l : List (OriginDeb V))
    (acc : OriginDeb V) :
    (l.foldl (fun n x => if n.version < x.version then x else n) acc) ∈ acc :: l := by
  induction l generalizing acc with
  | nil => simp
  | cons x xs ih =>
    rw [List.foldl_cons]
    by_cases hc : acc.version < x.version
    · simp only [if_pos hc]
      rcases List.mem_cons.mp (ih x) with h | h
      · exact List.mem_cons.mpr (Or.inr (List.mem_cons.mpr (Or.inl h)))
      · exact List.mem_cons.mpr (Or.inr (List.mem_cons.mpr (Or.inr h)))
    · simp only [if_neg hc]
      rcases List.mem_cons.mp (ih acc) with h | h
      · exact List.mem_cons.mpr (Or.inl h)
      · exact List.mem_cons.mpr (Or.inr (List.mem_cons.mpr (Or.inr h)))

/-- The result of `OriginPackage::newest` is one of the package's builds. -/
theorem newest_mem {V : Type} [LinearOrder V] (p : OriginPackage V)
    (dn : OriginDeb V) (h : p.newest = some dn) : dn ∈ p.debs := by
  obtain ⟨debs⟩ := p
  cases debs with
  | nil => simp [OriginPackage.newest] at h
  | cons d0 ds =>
    simp only [OriginPackage.newest, Option.some.injEq] at h
    rcases List.mem_cons.mp (h ▸ foldl_newest_mem ds d0) with hh | hh
    · exact List.mem_cons.mpr (Or.inl hh)
    · exact List.mem_cons.mpr (Or.inr hh)

/-- The per-group loop of the arch-independent sync only ever appends
`AddDeb` actions (with the `KeyOrFilename` policy). -/
theorem indepGroupStep_snd_shape {V : Type} [LinearOrder V] (aptly : AptlyPackage V)
    (g : (String × V) × List (OriginDeb V)) :
    ∀ x ∈ (indepGroupStep aptly g).2,
      ∃ d, x = addDebAction d MatchPoolPackageBy.keyOrFilename := by
  unfold indepGroupStep
  cases findHashMatch aptly.keys g.2 with
  | some found => simp
  | none =>
    cases g.2 with
    | nil => simp
    | cons d0 rest =>
      by_cases hall : (aptly.keys.all fun a => decide (a.version < d0.version)) = true
      · simp only [if_pos hall]
        intro x hx
        simp at hx
        exact ⟨d0, hx⟩
      · simp only [if_neg hall]
        cases List.find? (fun a => decide (a.version = d0.version)) aptly.keys with
        | some found => simp
        | none => simp

/-- C3: whenever the arch-independent sync step succeeds, the version of
the newest origin build bounds every origin build, every removal it
emitted is of a key strictly below that bound, and no key at or above the
bound is removed. -/
theorem claim_C3 {V : Type} [LinearOrder V] (groups : GroupList V)
    (origin : OriginPackage V) (aptly : AptlyPackage V) (dn : OriginDeb V)
    (acts : List (SyncAction V)) (hn : origin.newest = some dn)
    (hr : BinaryInDepSyncer.sync groups origin aptly = .ok acts) :
    (∀ d ∈ origin.debs, d.version ≤ dn.version) ∧
    (∀ k : AptlyKey V, SyncAction.removeAptly k ∈ acts → k.version < dn.version) ∧
    (∀ k : AptlyKey V, dn.version ≤ k.version → SyncAction.removeAptly k ∉ acts) := by
  unfold BinaryInDepSyncer.sync at hr
  rw [hn] at hr
  simp only [Except.ok.injEq] at hr
  have hrem : ∀ k : AptlyKey V, SyncAction.removeAptly k ∈ acts → k.version < dn.version := by
    intro k hk
    rw [← hr] at hk
    rcases List.mem_append.mp hk with hk | hk
    · rcases List.mem_flatten.mp hk with ⟨l, hl, hkl⟩
      rcases List.mem_map.mp hl with ⟨st, hst, rfl⟩
      rcases List.mem_map.mp hst with ⟨g, hg, rfl⟩
      rcases indepGroupStep_snd_shape aptly g _ hkl with ⟨d, hd⟩
      simp [addDebAction] at hd
    · rcases List.mem_map.mp hk with ⟨k', hk', hkk⟩
      have : k' = k := by simpa using hkk
      subst this
      have := (List.mem_filter.mp hk').2
      simp at this
      exact this.2
  refine ⟨newest_version_isMax origin dn hn, hrem, ?_⟩
  intro k hge hk
  exact absurd (hrem k hk) (not_lt_of_le hge)

/-- C3, witness: one removal (`version 4 < newest 5`) is emitted, the key
at version 6 is untouched. -/
theorem claim_C3_witness :
    (SyncAction.removeAptly (⟨"foo", 4, "all", "xx"⟩ : AptlyKey ℕ) ∈
      [SyncAction.removeAptly (⟨"foo", 4, "all", "xx"⟩ : AptlyKey ℕ)] →
        (4 : ℕ) < 5) ∧
    SyncAction.removeAptly (⟨"foo", 6, "all", "yy"⟩ : AptlyKey ℕ) ∉
      [SyncAction.removeAptly (⟨"foo", 4, "all", "xx"⟩ : AptlyKey ℕ)] := by
  have h := claim_C3 (V := ℕ)
    (canonicalGrouping ⟨[⟨"foo", 5, "all", ["foo.deb"], "s", "h5"⟩]⟩)
    ⟨[⟨"foo", 5, "all", ["foo.deb"], "s", "h5"⟩]⟩
    ⟨[⟨"foo", 4, "all", "xx"⟩, ⟨"foo", 6, "all", "yy"⟩]⟩
    ⟨"foo", 5, "all", ["foo.deb"], "s", "h5"⟩
    [SyncAction.removeAptly ⟨"foo", 4, "all", "xx"⟩]
    rfl
    (by simp +decide [BinaryInDepSyncer.sync, canonicalGrouping, indepGroupStep,
      findHashMatch, OriginPackage.newest, addDebAction])
  exact ⟨fun hm => h.2.1 _ hm, h.2.2 _ (by decide)⟩

/-! ### Claim C4: ambiguous multi-source origins -/

/-- A concrete origin offering two source builds of `baz` with different
content hashes. -/
def c4origin : OriginSource ℕ :=
  ⟨[⟨"baz", 1, ["pool", "baz_1.dsc"], [], "aa"⟩,
    ⟨"baz", 2, ["pool", "baz_2.dsc"], [], "bb"⟩]⟩

/-- The matching target group holding the older source of `baz`. -/
def c4aptly : AptlyPackage ℕ :=
  ⟨[⟨"baz", 1, "source", "aa"⟩]⟩

/-- C4, counterexample.  The claim says that with more than one origin
source build of non-identical hashes the sync step fails with a hard error
and emits no actions for the name.  The `sync2aptly` `SourceSyncer::sync`
(the engine the claim cites first) performs no such check: on this
two-source, two-hash origin it succeeds and even emits a remove-and-add
pair driven by the newest source. -/
theorem claim_C4_counterexample :
    c4origin.sources.length = 2 ∧
    (∃ s1 ∈ c4origin.sources, ∃ s2 ∈ c4origin.sources, s1.aptlyHash ≠ s2.aptlyHash) ∧
    SourceSyncer.sync c4origin c4aptly =
      .ok [SyncAction.removeAptly ⟨"baz", 1, "source", "aa"⟩,
           SyncAction.addDsc "baz" "bb" ["pool", "baz_2.dsc"] []] := by
  refine ⟨rfl, by decide, rfl⟩

/-- C4, amended: the ambiguity check lives in the legacy `obs2aptly`
source syncer (the claim's second citation): there, a name on both sides
whose origin offers several source builds with non-identical content
hashes is a hard error — the step fails before emitting any action.  The
`sync2aptly` engine performs no such check (see the counterexample). -/
theorem claim_C4 {V : Type} [LinearOrder V] (origin : OriginSource V)
    (aptly : AptlyPackage V) (d : OriginDsc V) (rest : List (OriginDsc V))
    (h : origin.sources = d :: rest) (s : OriginDsc V) (hs : s ∈ rest)
    (hne : s.aptlyHash ≠ d.aptlyHash) :
    ObsSourceSyncer.sync origin aptly =
      .error (.msg "Multiple sources of different hashes for a single package") := by
  unfold ObsSourceSyncer.sync
  rw [h]
  have hall : (rest.all fun sx => sx.aptlyHash == d.aptlyHash) = false := by
    rw [List.all_eq_false]
    exact ⟨s, hs, by simpa using hne⟩
  simp [hall]

/-- C4, witness: the legacy syncer rejects the two-hash origin. -/
theorem claim_C4_witness :
    ObsSourceSyncer.sync c4origin c4aptly =
      .error (.msg "Multiple sources of different hashes for a single package") :=
  claim_C4 c4origin c4aptly ⟨"baz", 1, ["pool", "baz_1.dsc"], [], "aa"⟩
    [⟨"baz", 2, ["pool", "baz_2.dsc"], [], "bb"⟩] rfl
    ⟨"baz", 2, ["pool", "baz_2.dsc"], [], "bb"⟩ (by decide) (by decide)

/-! ### Claim C6: content hash and file order -/

/-- Sorting by basename: the comparison the sort maintains (non-strict,
`b` not strictly before `a`). -/
def fileNameLe (a b : DscFile) : Prop :=
  strLt b.name a.name = false

theorem fileInsert_perm (f : DscFile) (l : List DscFile) :
    List.Perm (fileInsert f l) (f :: l) := by
  induction l with
  | nil => simp [fileInsert]
  | cons g gs ih =>
    unfold fileInsert
    by_cases h : strLt g.name f.name = true
    · rw [if_pos h]
      exact (List.Perm.cons g ih).trans (List.Perm.swap f g gs)
    · rw [if_neg h]

theorem fileInsert_sorted (f : DscFile) (l : List DscFile)
    (h : l.Pairwise fileNameLe) : (fileInsert f l).Pairwise fileNameLe := by
  induction l with
  | nil => simp [fileInsert, List.Pairwise]
  | cons g gs ih =>
    rcases List.pairwise_cons.mp h with ⟨hg, hgs⟩
    unfold fileInsert
    by_cases hc : strLt g.name f.name = true
    · rw [if_pos hc]
      refine List.pairwise_cons.mpr ⟨?_, ih hgs⟩
      intro x hx
      rcases List.mem_cons.mp ((fileInsert_perm f gs).mem_iff.mp hx) with rfl | hx
      · exact strLt_asymm hc
      · exact hg x hx
    · rw [if_neg hc]
      refine List.pairwise_cons.mpr ⟨?_, h⟩
      intro x hx
      rcases List.mem_cons.mp hx with rfl | hx
      · unfold fileNameLe
        cases hxx : strLt x.name f.name
        · rfl
        · exact absurd hxx (by simpa using hc)
      · unfold fileNameLe
        cases hxx : strLt x.name f.name
        · rfl
        · exfalso
          have hgx : strLt x.name g.name = false := hg x hx
          have hgf : strLt g.name f.name = false := by simpa using hc
          cases hxg : strLt g.name x.name with
          | false => exact absurd (strLt_eq_of_not_lt hxg hgx ▸ hxx) (by simp [hgf])
          | true => exact absurd (strLt_trans hxg hxx) (by simp [hgf])

theorem fileSort_perm (l : List DscFile) : List.Perm (fileSort l) l := by
  induction l with
  | nil => simp [fileSort]
  | cons f fs ih =>
    exact (fileInsert_perm f (fileSort fs)).trans (List.Perm.cons f ih)

theorem fileSort_sorted (l : List DscFile) : (fileSort l).Pairwise fileNameLe := by
  induction l with
  | nil => simp [fileSort, List.Pairwise]
  | cons f fs ih => exact fileInsert_sorted f (fileSort fs) ih

/-- Two sorted lists with no repeated basenames that are permutations of
each other are equal. -/
theorem sorted_perm_nodup_eq : ∀ l1 l2 : List DscFile,
    l1.Pairwise fileNameLe → l2.Pairwise fileNameLe → List.Perm l1 l2 →
    (l1.map DscFile.name).Nodup → l1 = l2 := by
  intro l1
  induction l1 with
  | nil =>
    intro l2 _ _ hperm _
    cases l2 with
    | nil => rfl
    | cons g t2 => simpa using hperm.length_eq
  | cons f t1 ih =>
    intro l2 h1 h2 hperm hnd
    cases l2 with
    | nil => simpa using hperm.length_eq
    | cons g t2 =>
      have hfg : f = g := by
        by_contra hne
        have hf2 : f ∈ t2 := by
          rcases List.mem_cons.mp (hperm.mem_iff.mp (List.mem_cons_self f t1)) with h | h
          · exact absurd h hne
          · exact h
        have hg1 : g ∈ t1 := by
          rcases List.mem_cons.mp (hperm.mem_iff.mpr (List.mem_cons_self g t2)) with h | h
          · exact absurd h.symm hne
          · exact h
        have hle1 : strLt g.name f.name = false :=
          (List.pairwise_cons.mp h1).1 g hg1
        have hle2 : strLt f.name g.name = false :=
          (List.pairwise_cons.mp h2).1 f hf2
        have hname : f.name = g.name := strLt_eq_of_not_lt hle2 hle1
        have : f.name ∉ t1.map DscFile.name := (List.nodup_cons.mp hnd).1
        exact this (hname ▸ List.mem_map_of_mem DscFile.name hg1)
      subst hfg
      have ht : t1 = t2 :=
        ih t2 (List.pairwise_cons.mp h1).2 (List.pairwise_cons.mp h2).2
          hperm.cons_inv (List.nodup_cons.mp hnd).2
      rw [ht]

/-- A concrete pair of file records sharing one basename. -/
def c6f1 : DscFile := ⟨"a", 0, "x", "", ""⟩

/-- Its partner with a different md5. -/
def c6f2 : DscFile := ⟨"a", 0, "y", "", ""⟩

/-- C6, counterexample.  The claim quantifies over *every* list of file
records and every permutation.  With two records sharing the basename
`"a"` (but different md5 fields), swapping them changes the content hash:
sorting by basename keeps equal names in input order, so the fold sees the
records in a different order. -/
theorem claim_C6_counterexample :
    List.Perm [c6f1, c6f2] [c6f2, c6f1] ∧
    contentHash [c6f1, c6f2] ≠ contentHash [c6f2, c6f1] := by
  exact ⟨by decide, by decide⟩

/-- C6, amended: for every list of file records whose basenames are
pairwise distinct — which holds for every list the code ever hashes, since
`Dsc::files` returns the entries of a basename-keyed `BTreeMap` — the
content hash is invariant under permutation of the records. -/
theorem claim_C6 (l1 l2 : List DscFile) (hperm : List.Perm l1 l2)
    (hnd : (l1.map DscFile.name).Nodup) : contentHash l1 = contentHash l2 := by
  have hsorted : fileSort l1 = fileSort l2 := by
    refine sorted_perm_nodup_eq _ _ (fileSort_sorted l1) (fileSort_sorted l2)
      ((fileSort_perm l1).trans (hperm.trans (fileSort_perm l2).symm)) ?_
    exact (((fileSort_perm l1).map DscFile.name).nodup_iff).mpr hnd
  unfold contentHash
  rw [hsorted]

/-- C6, witness: two distinct-basename records, hashed in both orders. -/
theorem claim_C6_witness :
    contentHash [⟨"b", 1, "m", "s", "t"⟩, ⟨"a", 2, "n", "u", "v"⟩] =
      contentHash [⟨"a", 2, "n", "u", "v"⟩, ⟨"b", 1, "m", "s", "t"⟩] :=
  claim_C6 _ _ (by decide) (by decide)

/-! ### Claim C9: pool-reuse matching policy -/

/-- Every `AddDeb` in the list carries the given match policy. -/
def addDebPoliciesAre {V : Type} (m : MatchPoolPackageBy) (acts : List (SyncAction V)) :
    Prop :=
  ∀ p h l me, SyncAction.addDeb p h l me ∈ acts → me = m

/-- No `AddDeb` occurs in the list. -/
def noAddDeb {V : Type} (acts : List (SyncAction V)) : Prop :=
  ∀ p h l me, SyncAction.addDeb p h l me ∉ acts

/-- A successful `add_dsc` records an `AddDsc` action for its source. -/
theorem addDscAction_shape {V : Type} (d : OriginDsc V) (a : SyncAction V)
    (h : addDscAction d = .ok a) :
    ∃ refs, a = SyncAction.addDsc d.package d.aptlyHash d.dscLocation refs := by
  unfold addDscAction at h
  split at h
  · simp only [Except.ok.injEq] at h
    exact ⟨_, h.symm⟩
  · exact Except.noConfusion h

/-- C9: the pool pass prefers same-name same-hash matches under any
policy; a filename-only match is rewritten only under `KeyOrFilename` and
is a hard error under `KeyOnly`; `AddDsc` rewriting is wired to `KeyOnly`;
and the syncers set `KeyOrFilename` exactly on the arch-independent
class's `AddDeb`s (the arch-specific class uses `KeyOnly`, sources emit no
`AddDeb` at all). -/
theorem claim_C9 {V : Type} [LinearOrder V] :
    (∀ (pools : PoolPackagesByName V) package aptlyHash loc me ps p,
      alookup pools package = some ps →
      ps.find? (fun m => m.key.hash == aptlyHash) = some p →
      findMatchingPackage pools package aptlyHash loc me = .ok (some p.key)) ∧
    (∀ (pools : PoolPackagesByName V) package aptlyHash loc ps filename p,
      alookup pools package = some ps →
      ps.find? (fun m => m.key.hash == aptlyHash) = none →
      locFileName loc = some filename →
      ps.find? (PoolPackage.matchesFilename filename) = some p →
      findMatchingPackage pools package aptlyHash loc .keyOrFilename = .ok (some p.key) ∧
      findMatchingPackage pools package aptlyHash loc .keyOnly =
        .error (.msg "Package already exists with different key")) ∧
    (∀ (pools : PoolPackagesByName V) package aptlyHash dscLocation refs,
      reuseOne pools (SyncAction.addDsc package aptlyHash dscLocation refs) =
        (findMatchingPackage pools package aptlyHash dscLocation
          MatchPoolPackageBy.keyOnly).map
          (fun found =>
            match found with
            | some key => SyncAction.addPoolPackage key
            | none => SyncAction.addDsc package aptlyHash dscLocation refs)) ∧
    (∀ (origin : OriginPackage V) acts, BinaryDepSyncer.add origin = .ok acts →
      addDebPoliciesAre .keyOnly acts) ∧
    (∀ (origin : OriginPackage V) aptly acts, BinaryDepSyncer.sync origin aptly = .ok acts →
      addDebPoliciesAre .keyOnly acts) ∧
    (∀ (origin : OriginPackage V) acts, BinaryInDepSyncer.add origin = .ok acts →
      addDebPoliciesAre .keyOrFilename acts) ∧
    (∀ (groups : GroupList V) origin aptly acts,
      BinaryInDepSyncer.sync groups origin aptly = .ok acts →
      addDebPoliciesAre .keyOrFilename acts) ∧
    (∀ (origin : OriginSource V) acts, SourceSyncer.add origin = .ok acts → noAddDeb acts) ∧
    (∀ (origin : OriginSource V) aptly acts, SourceSyncer.sync origin aptly = .ok acts →
      noAddDeb acts) := by
  refine ⟨?_, ?_, ?_, ?_, ?_, ?_, ?_, ?_, ?_⟩
  · intro pools package aptlyHash loc me ps p halo hfind
    simp [findMatchingPackage, halo, hfind]
  · intro pools package aptlyHash loc ps filename p halo hnone hfn hfile
    constructor
    · simp [findMatchingPackage, halo, hnone, hfn, hfile]
    · simp [findMatchingPackage, halo, hnone, hfn, hfile]
  · intro pools package aptlyHash dscLocation refs
    rfl
  · intro origin acts hr
    unfold BinaryDepSyncer.add at hr
    split at hr
    · exact Except.noConfusion hr
    · simp only [Except.ok.injEq] at hr
      subst hr
      intro p h l me hmem
      simp [addDebAction] at hmem
      exact hmem.2.2.2
  · intro origin aptly acts hr
    unfold BinaryDepSyncer.sync at hr
    split at hr
    · exact Except.noConfusion hr
    · split at hr
      · exact Except.noConfusion hr
      · split at hr
        · simp only [Except.ok.injEq] at hr
          subst hr
          intro p h l me hmem
          simp at hmem
        · split at hr
          · simp only [Except.ok.injEq] at hr
            subst hr
            intro p h l me hmem
            rcases List.mem_append.mp hmem with hm | hm
            · rcases List.mem_map.mp hm with ⟨k, _, hk⟩
              cases hk
            · simp [addDebAction] at hm
              exact hm.2.2.2
          · simp only [Except.ok.injEq] at hr
            subst hr
            intro p h l me hmem
            simp at hmem
  · intro origin acts hr
    unfold BinaryInDepSyncer.add at hr
    split at hr
    · exact Except.noConfusion hr
    · simp only [Except.ok.injEq] at hr
      subst hr
      intro p h l me hmem
      simp [addDebAction] at hmem
      exact hmem.2.2.2
  · intro groups origin aptly acts hr
    unfold BinaryInDepSyncer.sync at hr
    split at hr
    · exact Except.noConfusion hr
    · simp only [Except.ok.injEq] at hr
      subst hr
      intro p h l me hmem
      rcases List.mem_append.mp hmem with hm | hm
      · rcases List.mem_flatten.mp hm with ⟨ll, hll, hmll⟩
        rcases List.mem_map.mp hll with ⟨st, hst, rfl⟩
        rcases List.mem_map.mp hst with ⟨g, hg, rfl⟩
        rcases indepGroupStep_snd_shape aptly g _ hmll with ⟨d, hd⟩
        simp [addDebAction] at hd
        exact hd.2.2.2
      · rcases List.mem_map.mp hm with ⟨k, _, hk⟩
        cases hk
  · intro origin acts hr
    unfold SourceSyncer.add at hr
    split at hr
    · exact Except.noConfusion hr
    · next d _ =>
      cases hd : addDscAction d with
      | error e => rw [hd] at hr; exact Except.noConfusion hr
      | ok a =>
        rw [hd] at hr
        simp only [Except.map, Except.ok.injEq] at hr
        subst hr
        rcases addDscAction_shape d a hd with ⟨refs, rfl⟩
        intro p h l me hmem
        simp at hmem
  · intro origin aptly acts hr
    unfold SourceSyncer.sync at hr
    split at hr
    · exact Except.noConfusion hr
    · next d _ =>
      split at hr
      · exact Except.noConfusion hr
      · next a _ =>
        split at hr
        · cases hd : addDscAction d with
          | error e => rw [hd] at hr; exact Except.noConfusion hr
          | ok act =>
            rw [hd] at hr
            simp only [Except.map, Except.ok.injEq] at hr
            subst hr
            rcases addDscAction_shape d act hd with ⟨refs, rfl⟩
            intro p h l me hmem
            simp at hmem
        · simp only [Except.ok.injEq] at hr
          subst hr
          intro p h l me hmem
          simp at hmem

/-- C9, witness: a pool holding `foo` as a binary with hash `"zz"` and
filename `foo_1.deb`; a pending add for the same filename but hash
`"aa"` is rewritten under `KeyOrFilename` and rejected under `KeyOnly`. -/
theorem claim_C9_witness :
    findMatchingPackage (V := ℕ)
        [("foo", [PoolPackage.binary ⟨"foo", 1, "amd64", "zz"⟩ "foo_1.deb"])]
        "foo" "aa" ["pool", "foo_1.deb"] .keyOrFilename =
      .ok (some ⟨"foo", 1, "amd64", "zz"⟩) ∧
    findMatchingPackage (V := ℕ)
        [("foo", [PoolPackage.binary ⟨"foo", 1, "amd64", "zz"⟩ "foo_1.deb"])]
        "foo" "aa" ["pool", "foo_1.deb"] .keyOnly =
      .error (.msg "Package already exists with different key") := by
  have h := (claim_C9 (V := ℕ)).2.1
    [("foo", [PoolPackage.binary ⟨"foo", 1, "amd64", "zz"⟩ "foo_1.deb"])]
    "foo" "aa" ["pool", "foo_1.deb"]
    [PoolPackage.binary ⟨"foo", 1, "amd64", "zz"⟩ "foo_1.deb"]
    "foo_1.deb" (PoolPackage.binary ⟨"foo", 1, "amd64", "zz"⟩ "foo_1.deb")
    (by decide) (by decide) (by decide) (by decide)
  exact h

/-! ### Claim C10: groups created by the builders are never empty -/

theorem mapUpdate_forall {β : Type} (P : β → Prop) (k : String) (f : β → β) (dflt : β)
    (l : List (String × β)) (hl : ∀ p ∈ l, P p.2) (hf : ∀ v, P v → P (f v))
    (hd : P (f dflt)) : ∀ p ∈ mapUpdate k f dflt l, P p.2 := by
  induction l with
  | nil =>
    intro p hp
    unfold mapUpdate at hp
    rcases List.mem_singleton.mp hp with rfl
    exact hd
  | cons x rest ih =>
    intro p hp
    unfold mapUpdate at hp
    by_cases h1 : strLt k x.1 = true
    · rw [if_pos h1] at hp
      rcases List.mem_cons.mp hp with rfl | hp
      · exact hd
      · exact hl p hp
    · rw [if_neg h1] at hp
      by_cases h2 : k = x.1
      · rw [if_pos h2] at hp
        rcases List.mem_cons.mp hp with rfl | hp
        · exact hf x.2 (hl x (List.mem_cons_self x rest))
        · exact hl p (List.mem_cons.mpr (Or.inr hp))
      · rw [if_neg h2] at hp
        rcases List.mem_cons.mp hp with rfl | hp
        · exact hl _ (List.mem_cons_self _ rest)
        · exact ih (fun q hq => hl q (List.mem_cons.mpr (Or.inr hq))) p hp

theorem hashUpdate_forall {β : Type} (P : β → Prop) (k : String) (f : β → β) (dflt : β)
    (l : List (String × β)) (hl : ∀ p ∈ l, P p.2) (hf : ∀ v, P v → P (f v))
    (hd : P (f dflt)) : ∀ p ∈ hashUpdate k f dflt l, P p.2 := by
  induction l with
  | nil =>
    intro p hp
    unfold hashUpdate at hp
    rcases List.mem_singleton.mp hp with rfl
    exact hd
  | cons x rest ih =>
    intro p hp
    unfold hashUpdate at hp
    by_cases h1 : x.1 = k
    · rw [if_pos h1] at hp
      rcases List.mem_cons.mp hp with rfl | hp
      · exact hf x.2 (hl x (List.mem_cons_self x rest))
      · exact hl p (List.mem_cons.mpr (Or.inr hp))
    · rw [if_neg h1] at hp
      rcases List.mem_cons.mp hp with rfl | hp
      · exact hl _ (List.mem_cons_self _ rest)
      · exact ih (fun q hq => hl q (List.mem_cons.mpr (Or.inr hq))) p hp

/-- A `BTreeSet::insert` result is never empty. -/
theorem insertKey_ne_nil {V : Type} [LinearOrder V] (k : AptlyKey V)
    (l : List (AptlyKey V)) : insertKey k l ≠ [] := by
  cases l with
  | nil => simp [insertKey]
  | cons x xs =>
    unfold insertKey
    cases AptlyKey.cmp k x <;> simp

/-- Every group of an `AptlyContent` has a non-empty key set. -/
def aptlyGroupsNonempty {V : Type} (c : AptlyContent V) : Prop :=
  (∀ am ∈ c.binaryArch, ∀ p ∈ am.2, p.2.keys ≠ []) ∧
  (∀ p ∈ c.binaryIndep, p.2.keys ≠ []) ∧
  (∀ p ∈ c.sources, p.2.keys ≠ [])

/-- Every group of an `OriginContent` is non-empty. -/
def originGroupsNonempty {V : Type} (c : OriginContent V) : Prop :=
  (∀ am ∈ c.binaryArch, ∀ p ∈ am.2, p.2.debs ≠ []) ∧
  (∀ p ∈ c.binaryIndep, p.2.debs ≠ []) ∧
  (∀ p ∈ c.sources, p.2.sources ≠ [])

theorem addKey_preserves_nonempty {V : Type} [LinearOrder V] (c : AptlyContent V)
    (key : AptlyKey V) (h : aptlyGroupsNonempty c) :
    aptlyGroupsNonempty (c.addKey key) := by
  obtain ⟨h1, h2, h3⟩ := h
  unfold AptlyContent.addKey
  by_cases hb : key.isBinary = true
  · rw [if_pos hb]
    by_cases hall : key.arch = "all"
    · rw [if_pos hall]
      refine ⟨h1, ?_, h3⟩
      exact mapUpdate_forall (fun g : AptlyPackage V => g.keys ≠ []) key.package _ _ _ h2
        (fun v _ => insertKey_ne_nil key v.keys) (insertKey_ne_nil key [])
    · rw [if_neg hall]
      refine ⟨?_, h2, h3⟩
      exact hashUpdate_forall
        (fun m : List (String × AptlyPackage V) => ∀ p ∈ m, p.2.keys ≠ [])
        key.arch _ _ _ h1
        (fun v hv => mapUpdate_forall (fun g : AptlyPackage V => g.keys ≠ [])
          key.package _ _ v hv
          (fun w _ => insertKey_ne_nil key w.keys) (insertKey_ne_nil key []))
        (mapUpdate_forall (fun g : AptlyPackage V => g.keys ≠ []) key.package _ _ []
          (by simp) (fun w _ => insertKey_ne_nil key w.keys) (insertKey_ne_nil key []))
  · rw [if_neg hb]
    refine ⟨h1, h2, ?_⟩
    exact mapUpdate_forall (fun g : AptlyPackage V => g.keys ≠ []) key.package _ _ _ h3
      (fun v _ => insertKey_ne_nil key v.keys) (insertKey_ne_nil key [])

theorem addOrigin_preserves_nonempty {V : Type} (c : OriginContent V)
    (i : OriginItem V) (h : originGroupsNonempty c) :
    originGroupsNonempty (originStep c i) := by
  obtain ⟨h1, h2, h3⟩ := h
  cases i with
  | deb d =>
    show originGroupsNonempty (OriginContentBuilder.addDeb c d)
    unfold OriginContentBuilder.addDeb
    by_cases hall : d.architecture = "all"
    · rw [if_pos hall]
      refine ⟨h1, ?_, h3⟩
      exact mapUpdate_forall (fun g : OriginPackage V => g.debs ≠ []) d.package _ _ _ h2
        (fun v _ => by simp [OriginPackage.push]) (by simp [OriginPackage.push])
    · rw [if_neg hall]
      refine ⟨?_, h2, h3⟩
      exact hashUpdate_forall
        (fun m : List (String × OriginPackage V) => ∀ p ∈ m, p.2.debs ≠ [])
        d.architecture _ _ _ h1
        (fun v hv => mapUpdate_forall (fun g : OriginPackage V => g.debs ≠ [])
          d.package _ _ v hv
          (fun w _ => by simp [OriginPackage.push]) (by simp [OriginPackage.push]))
        (mapUpdate_forall (fun g : OriginPackage V => g.debs ≠ []) d.package _ _ []
          (by simp) (fun w _ => by simp [OriginPackage.push])
          (by simp [OriginPackage.push]))
  | dsc d =>
    show originGroupsNonempty (OriginContentBuilder.addDsc c d)
    unfold OriginContentBuilder.addDsc
    refine ⟨h1, h2, ?_⟩
    exact mapUpdate_forall (fun g : OriginSource V => g.sources ≠ []) d.package _ _ _ h3
      (fun v _ => by simp [OriginSource.push]) (by simp [OriginSource.push])

theorem foldl_preserves {α β : Type} (P : β → Prop) (f : β → α → β)
    (hf : ∀ b a, P b → P (f b a)) : ∀ (l : List α) (b : β), P b → P (l.foldl f b) := by
  intro l
  induction l with
  | nil => intro b hb; simpa using hb
  | cons x xs ih => intro b hb; rw [List.foldl_cons]; exact ih _ (hf b x hb)

/-- Lemma: `add_dsc` fails only with a returned error, never a panic. -/
theorem addDscAction_error_is_msg {V : Type} (d : OriginDsc V) :
    addDscAction d ≠ .error .panicked := by
  unfold addDscAction
  split
  · simp
  · simp

/-- C10: groups in containers built through `AptlyContent::add_key` and
`OriginContentBuilder` are non-empty, so the `newest` accessors of such
groups never return their "without keys"/"No debs"/"No sources" errors,
and `SourceSyncer::sync`'s `unwrap` of the first aptly key cannot panic on
them. -/
theorem claim_C10 {V : Type} [LinearOrder V] (ks : List (AptlyKey V))
    (items : List (OriginItem V)) :
    aptlyGroupsNonempty (buildAptlyContent ks) ∧
    originGroupsNonempty (buildOriginContent items) ∧
    (∀ g : AptlyPackage V, g.keys ≠ [] → g.newest.isSome) ∧
    (∀ p : OriginPackage V, p.debs ≠ [] → p.newest.isSome) ∧
    (∀ s : OriginSource V, s.sources ≠ [] → s.newest.isSome) ∧
    (∀ (o : OriginSource V) (g : AptlyPackage V), g.keys ≠ [] →
      SourceSyncer.sync o g ≠ .error .panicked) := by
  refine ⟨?_, ?_, ?_, ?_, ?_, ?_⟩
  · exact foldl_preserves aptlyGroupsNonempty AptlyContent.addKey
      (fun c k hc => addKey_preserves_nonempty c k hc) ks _
      ⟨by simp [AptlyContent.newEmpty], by simp [AptlyContent.newEmpty],
       by simp [AptlyContent.newEmpty]⟩
  · exact foldl_preserves originGroupsNonempty originStep
      (fun c i hc => addOrigin_preserves_nonempty c i hc) items _
      ⟨by simp [OriginContent.newEmpty], by simp [OriginContent.newEmpty],
       by simp [OriginContent.newEmpty]⟩
  · intro g hg
    obtain ⟨keys⟩ := g
    cases keys with
    | nil => simp at hg
    | cons k ks' => simp [AptlyPackage.newest]
  · intro p hp
    obtain ⟨debs⟩ := p
    cases debs with
    | nil => simp at hp
    | cons d ds => simp [OriginPackage.newest]
  · intro s hs
    obtain ⟨sources⟩ := s
    cases sources with
    | nil => simp at hs
    | cons d ds => simp [OriginSource.newest]
  · intro o g hg
    unfold SourceSyncer.sync
    cases hn : o.newest with
    | none => simp
    | some d =>
      obtain ⟨keys⟩ := g
      cases keys with
      | nil => simp at hg
      | cons a ks' =>
        simp only [List.head?]
        by_cases hne : d.aptlyHash ≠ a.hash
        · rw [if_pos hne]
          cases hd : addDscAction d with
          | error e =>
            simp only [Except.map]
            intro hcontra
            rcases Except.error.inj hcontra with rfl
            exact addDscAction_error_is_msg d hd
          | ok act => simp [Except.map]
        · rw [if_neg hne]
          simp

/-- C10, witness: a one-key repo listing builds only non-empty groups,
and the source sync step does not panic on a non-empty target group. -/
theorem claim_C10_witness :
    aptlyGroupsNonempty (buildAptlyContent (V := ℕ) [⟨"foo", 1, "all", "aa"⟩]) ∧
    SourceSyncer.sync (⟨[⟨"baz", 1, ["baz.dsc"], [], "aa"⟩]⟩ : OriginSource ℕ)
      ⟨[⟨"baz", 1, "source", "aa"⟩]⟩ ≠ .error .panicked :=
  ⟨(claim_C10 (V := ℕ) [⟨"foo", 1, "all", "aa"⟩] []).1,
   (claim_C10 (V := ℕ) [⟨"foo", 1, "all", "aa"⟩] []).2.2.2.2.2 _ _ (by decide)⟩

/-! ### Claim C1: the merge-join walk visits each name exactly once -/

theorem alookup_eq_none {β : Type} {l : List (String × β)} {n : String}
    (h : n ∉ l.map Prod.fst) : alookup l n = none := by
  induction l with
  | nil => rfl
  | cons x rest ih =>
    obtain ⟨k, v⟩ := x
    simp only [List.map_cons, List.mem_cons] at h
    push_neg at h
    unfold alookup
    rw [if_neg (fun hx => h.1 hx.symm)]
    exact ih h.2

/-- Every event of the walk is named by an origin or a target name. -/
theorem syncWalk_name_mem {V O : Type} (os : List (String × O))
    (as : List (String × AptlyPackage V)) :
    ∀ e ∈ syncWalk os as, e.name ∈ os.map Prod.fst ∨ e.name ∈ as.map Prod.fst := by
  induction os, as using syncWalk.induct with
  | case1 => simp [syncWalk]
  | case2 a av as' ih =>
    intro e he
    simp only [syncWalk] at he
    rcases List.mem_cons.mp he with rfl | he
    · simp [WalkEvent.name]
    · rcases ih e he with h | h
      · simp at h
      · right; simp [h]
  | case3 o ov os ih =>
    intro e he
    simp only [syncWalk] at he
    rcases List.mem_cons.mp he with rfl | he
    · simp [WalkEvent.name]
    · rcases ih e he with h | h
      · left; simp [h]
      · simp at h
  | case4 o ov os a av as' h ih =>
    intro e he
    simp only [syncWalk] at he
    rw [if_pos h] at he
    rcases List.mem_cons.mp he with rfl | he
    · simp [WalkEvent.name]
    · rcases ih e he with hm | hm
      · left; simp [hm]
      · right; exact hm
  | case5 ov os a av as' h ih =>
    intro e he
    simp only [syncWalk] at he
    simp only [if_neg h, if_true] at he
    rcases List.mem_cons.mp he with rfl | he
    · simp [WalkEvent.name]
    · rcases ih e he with hm | hm
      · left; simp [hm]
      · right; simp [hm]
  | case6 o ov os a av as' h1 h2 ih =>
    intro e he
    simp only [syncWalk] at he
    rw [if_neg h1, if_neg h2] at he
    rcases List.mem_cons.mp he with rfl | he
    · right; simp [WalkEvent.name]
    · rcases ih e he with hm | hm
      · left; exact hm
      · right; simp [hm]

/-- No event of the walk is named `n` when `n` is neither an origin nor a
target name. -/
theorem syncWalk_filter_nil {V O : Type} (os : List (String × O))
    (as : List (String × AptlyPackage V)) (n : String)
    (h1 : ∀ x ∈ os.map Prod.fst, x ≠ n) (h2 : ∀ x ∈ as.map Prod.fst, x ≠ n) :
    (syncWalk os as).filter (fun e => e.name == n) = [] := by
  rw [List.filter_eq_nil_iff]
  intro e he
  rcases syncWalk_name_mem os as e he with h | h
  · simpa using h1 _ h
  · simpa using h2 _ h

/-- The walk's events carrying a given name: exactly one `add` call for an
origin-only name (with that name's origin group), exactly one `sync` call
for a shared name (with both groups), exactly one wholesale removal for a
target-only name, nothing otherwise. -/
theorem syncWalk_filter {V O : Type} (os : List (String × O))
    (as : List (String × AptlyPackage V)) :
    os.Pairwise (fun p q => strLt p.1 q.1 = true) →
    as.Pairwise (fun p q => strLt p.1 q.1 = true) →
    ∀ n, (syncWalk os as).filter (fun e => e.name == n) =
      (match alookup os n, alookup as n with
       | some ov, none => [WalkEvent.add n ov]
       | some ov, some av => [WalkEvent.sync n ov av]
       | none, some av => [WalkEvent.removeAll n av]
       | none, none => []) := by
  induction os, as using syncWalk.induct with
  | case1 => intro _ _ n; simp [syncWalk, alookup]
  | case2 a av as' ih =>
    intro hos has n
    rcases List.pairwise_cons.mp has with ⟨hbound, htail⟩
    simp only [syncWalk]
    by_cases hn : a = n
    · subst hn
      rw [List.filter_cons_of_pos (by simp [WalkEvent.name])]
      rw [syncWalk_filter_nil _ _ _ (by simp) ?hb]
      case hb =>
        intro x hx
        rcases List.mem_map.mp hx with ⟨p, hp, rfl⟩
        exact (strLt_ne (hbound p hp)).symm
      simp [alookup]
    · rw [List.filter_cons_of_neg (by simp [WalkEvent.name, hn])]
      rw [ih List.Pairwise.nil htail n]
      simp [alookup, hn]
  | case3 o ov os ih =>
    intro hos has n
    rcases List.pairwise_cons.mp hos with ⟨hbound, htail⟩
    simp only [syncWalk]
    by_cases hn : o = n
    · subst hn
      rw [List.filter_cons_of_pos (by simp [WalkEvent.name])]
      rw [syncWalk_filter_nil _ _ _ ?hb (by simp)]
      case hb =>
        intro x hx
        rcases List.mem_map.mp hx with ⟨p, hp, rfl⟩
        exact (strLt_ne (hbound p hp)).symm
      simp [alookup]
    · rw [List.filter_cons_of_neg (by simp [WalkEvent.name, hn])]
      rw [ih htail List.Pairwise.nil n]
      simp [alookup, hn]
  | case4 o ov os a av as' h ih =>
    intro hos has n
    rcases List.pairwise_cons.mp hos with ⟨hbound, htail⟩
    rcases List.pairwise_cons.mp has with ⟨habound, hatail⟩
    simp only [syncWalk]
    rw [if_pos h]
    by_cases hn : o = n
    · subst hn
      rw [List.filter_cons_of_pos (by simp [WalkEvent.name])]
      rw [syncWalk_filter_nil _ _ _ ?ho ?ha]
      case ho =>
        intro x hx
        rcases List.mem_map.mp hx with ⟨p, hp, rfl⟩
        exact (strLt_ne (hbound p hp)).symm
      case ha =>
        intro x hx
        rcases List.mem_cons.mp hx with rfl | hx
        · exact (strLt_ne h).symm
        · rcases List.mem_map.mp hx with ⟨p, hp, rfl⟩
          exact (strLt_ne (strLt_trans h (habound p hp))).symm
      have hnone : alookup ((a, av) :: as') o = none := by
        apply alookup_eq_none
        intro hx
        rcases List.mem_cons.mp hx with heq | hx
        · exact (strLt_ne h).symm heq.symm
        · rcases List.mem_map.mp hx with ⟨p, hp, hpe⟩
          exact (strLt_ne (strLt_trans h (habound p hp))).symm hpe
      rw [hnone]
      simp [alookup]
    · rw [List.filter_cons_of_neg (by simp [WalkEvent.name, hn])]
      rw [ih htail has n]
      simp [alookup, hn]
  | case5 ov os a av as' h ih =>
    intro hos has n
    rcases List.pairwise_cons.mp hos with ⟨hbound, htail⟩
    rcases List.pairwise_cons.mp has with ⟨habound, hatail⟩
    simp only [syncWalk]
    simp only [if_neg h, if_true]
    by_cases hn : a = n
    · subst hn
      rw [List.filter_cons_of_pos (by simp [WalkEvent.name])]
      rw [syncWalk_filter_nil _ _ _ ?ho ?ha]
      case ho =>
        intro x hx
        rcases List.mem_map.mp hx with ⟨p, hp, rfl⟩
        exact (strLt_ne (hbound p hp)).symm
      case ha =>
        intro x hx
        rcases List.mem_map.mp hx with ⟨p, hp, rfl⟩
        exact (strLt_ne (habound p hp)).symm
      simp [alookup]
    · rw [List.filter_cons_of_neg (by simp [WalkEvent.name, hn])]
      rw [ih htail hatail n]
      simp [alookup, hn]
  | case6 o ov os a av as' h1 h2 ih =>
    intro hos has n
    rcases List.pairwise_cons.mp hos with ⟨hbound, htail⟩
    rcases List.pairwise_cons.mp has with ⟨habound, hatail⟩
    have hao : strLt a o = true := by
      cases hx : strLt a o
      · exact absurd (strLt_eq_of_not_lt (by simpa using h1) hx) h2
      · rfl
    simp only [syncWalk]
    rw [if_neg h1, if_neg h2]
    by_cases hn : a = n
    · subst hn
      rw [List.filter_cons_of_pos (by simp [WalkEvent.name])]
      rw [syncWalk_filter_nil _ _ _ ?ho ?ha]
      case ho =>
        intro x hx
        rcases List.mem_cons.mp hx with rfl | hx
        · exact (strLt_ne hao).symm
        · rcases List.mem_map.mp hx with ⟨p, hp, rfl⟩
          exact (strLt_ne (strLt_trans hao (hbound p hp))).symm
      case ha =>
        intro x hx
        rcases List.mem_map.mp hx with ⟨p, hp, rfl⟩
        exact (strLt_ne (habound p hp)).symm
      have hnone : alookup ((o, ov) :: os) a = none := by
        apply alookup_eq_none
        intro hx
        rcases List.mem_cons.mp hx with heq | hx
        · exact (strLt_ne hao).symm heq.symm
        · rcases List.mem_map.mp hx with ⟨p, hp, hpe⟩
          exact (strLt_ne (strLt_trans hao (hbound p hp))).symm hpe
      rw [hnone]
      simp [alookup]
    · rw [List.filter_cons_of_neg (by simp [WalkEvent.name, hn])]
      rw [ih hos hatail n]
      simp [alookup, hn]

/-- Lemma: `sync_packages` is the sequential interpretation of its walk trace. -/
theorem runEvents_cons {V O : Type} (S : SyncerFns V O) (e : WalkEvent V O)
    (es : List (WalkEvent V O)) :
    runEvents S (e :: es) =
      (do
        let h ← eventActions S e
        let t ← runEvents S es
        Except.ok (h ++ t)) := rfl

theorem syncPackages_eq_runEvents {V O : Type} (S : SyncerFns V O)
    (os : List (String × O)) (as : List (String × AptlyPackage V)) :
    syncPackages S os as = runEvents S (syncWalk os as) := by
  induction os, as using syncWalk.induct with
  | case1 => simp [syncPackages, syncWalk, runEvents]
  | case2 a av as' ih =>
    simp only [syncPackages, syncWalk]
    rw [runEvents_cons, ih]
    rfl
  | case3 o ov os ih =>
    simp only [syncPackages, syncWalk]
    rw [runEvents_cons, ih]
    rfl
  | case4 o ov os a av as' h ih =>
    simp only [syncPackages, syncWalk, if_pos h]
    rw [runEvents_cons, ih]
    rfl
  | case5 ov os a av as' h ih =>
    simp only [syncPackages, syncWalk, if_neg h, if_true]
    rw [runEvents_cons, ih]
    rfl
  | case6 o ov os a av as' h1 h2 ih =>
    simp only [syncPackages, syncWalk, if_neg h1, if_neg h2]
    rw [runEvents_cons, ih]
    rfl

/-- C1: over name-sorted origin and target maps, the merge-join walk
visits each name of the union exactly once — an origin-only name as
exactly one `add` call with its origin group, a shared name as exactly one
`sync` call with both groups, a target-only name as one wholesale removal
whose actions are `RemoveAptly` for every key of the target group — and
`sync_packages` emits exactly the actions of that trace in order. -/
theorem claim_C1 {V O : Type} [LinearOrder V] (S : SyncerFns V O)
    (os : List (String × O)) (as : List (String × AptlyPackage V))
    (hos : os.Pairwise (fun p q => strLt p.1 q.1 = true))
    (has : as.Pairwise (fun p q => strLt p.1 q.1 = true)) :
    (∀ n, (syncWalk os as).filter (fun e => e.name == n) =
      (match alookup os n, alookup as n with
       | some ov, none => [WalkEvent.add n ov]
       | some ov, some av => [WalkEvent.sync n ov av]
       | none, some av => [WalkEvent.removeAll n av]
       | none, none => [])) ∧
    (∀ n (av : AptlyPackage V),
      eventActions S (WalkEvent.removeAll n av) = .ok (av.keys.map SyncAction.removeAptly)) ∧
    syncPackages S os as = runEvents S (syncWalk os as) :=
  ⟨syncWalk_filter os as hos has, fun _ _ => rfl, syncPackages_eq_runEvents S os as⟩

/-- C1, witness: two origin names against two target names with one
shared name: one `add`, one group removal, one `sync`, each exactly once. -/
theorem claim_C1_witness :
    ((syncWalk (V := ℕ) [("bar", (1 : ℕ)), ("foo", 2)]
        [("baz", ⟨[⟨"baz", 1, "all", "aa"⟩]⟩), ("foo", ⟨[⟨"foo", 1, "all", "bb"⟩]⟩)]).filter
      (fun e => e.name == "bar") = [WalkEvent.add "bar" 1]) ∧
    ((syncWalk (V := ℕ) [("bar", (1 : ℕ)), ("foo", 2)]
        [("baz", ⟨[⟨"baz", 1, "all", "aa"⟩]⟩), ("foo", ⟨[⟨"foo", 1, "all", "bb"⟩]⟩)]).filter
      (fun e => e.name == "baz") =
        [WalkEvent.removeAll "baz" ⟨[⟨"baz", 1, "all", "aa"⟩]⟩]) ∧
    ((syncWalk (V := ℕ) [("bar", (1 : ℕ)), ("foo", 2)]
        [("baz", ⟨[⟨"baz", 1, "all", "aa"⟩]⟩), ("foo", ⟨[⟨"foo", 1, "all", "bb"⟩]⟩)]).filter
      (fun e => e.name == "foo") =
        [WalkEvent.sync "foo" 2 ⟨[⟨"foo", 1, "all", "bb"⟩]⟩]) := by
  have h := (claim_C1 (V := ℕ) (O := ℕ)
    ⟨fun _ _ => .ok [], fun _ _ _ => .ok []⟩
    [("bar", (1 : ℕ)), ("foo", 2)]
    [("baz", ⟨[⟨"baz", 1, "all", "aa"⟩]⟩), ("foo", ⟨[⟨"foo", 1, "all", "bb"⟩]⟩)]
    (by simp [List.pairwise_cons]; decide) (by simp [List.pairwise_cons]; decide)).1
  refine ⟨?_, ?_, ?_⟩
  · exact (h "bar").trans (by simp +decide [alookup])
  · exact (h "baz").trans (by simp +decide [alookup])
  · exact (h "foo").trans (by simp +decide [alookup])

/-! ### Claim C7: an in-sync pair produces an empty action list -/

/-- In-sync condition for one architecture-specific binary name: both
newest entries resolve and carry the same content hash. -/
def pDep {V : Type} [LinearOrder V] (o : String × OriginPackage V)
    (a : String × AptlyPackage V) : Prop :=
  o.1 = a.1 ∧
  ∃ dn kn, o.2.newest = some dn ∧ a.2.newest = some kn ∧ dn.aptlyHash = kn.hash

/-- In-sync condition for one arch-independent name: the target holds
exactly the newest origin build (same hash and version), and the grouping
is a genuine iteration of the name's `origin_by_version` map. -/
def pIndep {V : Type} [LinearOrder V] (grouping : OriginPackage V → GroupList V)
    (o : String × OriginPackage V) (a : String × AptlyPackage V) : Prop :=
  o.1 = a.1 ∧ isGroupingOf o.2.debs (grouping o.2) ∧
  ∃ dn k, o.2.newest = some dn ∧ a.2.keys = [k] ∧ k.hash = dn.aptlyHash ∧
    k.version = dn.version

/-- In-sync condition for one source name: the newest origin source and
the first target key carry the same content hash. -/
def pSrc {V : Type} [LinearOrder V] (o : String × OriginSource V)
    (a : String × AptlyPackage V) : Prop :=
  o.1 = a.1 ∧
  ∃ d k, o.2.newest = some d ∧ a.2.keys.head? = some k ∧ d.aptlyHash = k.hash

/-- A walk over two maps with identical name sequences whose every `sync`
call is silent emits nothing. -/
theorem syncPackages_ok_nil {V O : Type} (S : SyncerFns V O)
    (os : List (String × O)) (as : List (String × AptlyPackage V))
    (h : List.Forall₂ (fun (o : String × O) (a : String × AptlyPackage V) =>
      o.1 = a.1 ∧ S.sync o.1 o.2 a.2 = .ok []) os as) :
    syncPackages S os as = .ok [] := by
  induction h with
  | nil => simp [syncPackages]
  | @cons o a os' as' hpair htail ih =>
    obtain ⟨o1, o2⟩ := o
    obtain ⟨a1, a2⟩ := a
    obtain ⟨heq, hsync⟩ := hpair
    simp only at heq
    subst heq
    simp only [syncPackages, strLt_irrefl, Bool.false_eq_true, if_false, if_pos rfl]
    rw [hsync, ih]
    rfl

theorem binaryDepSync_insync {V : Type} [LinearOrder V] (o : OriginPackage V)
    (a : AptlyPackage V) (dn : OriginDeb V) (kn : AptlyKey V)
    (h1 : o.newest = some dn) (h2 : a.newest = some kn)
    (hh : dn.aptlyHash = kn.hash) : BinaryDepSyncer.sync o a = .ok [] := by
  unfold BinaryDepSyncer.sync
  rw [h1, h2]
  simp [hh]

theorem sourceSync_insync {V : Type} [LinearOrder V] (o : OriginSource V)
    (a : AptlyPackage V) (d : OriginDsc V) (k : AptlyKey V)
    (h1 : o.newest = some d) (h2 : a.keys.head? = some k)
    (hh : d.aptlyHash = k.hash) : SourceSyncer.sync o a = .ok [] := by
  unfold SourceSyncer.sync
  rw [h1, h2]
  simp [hh]

/-- With a single candidate key whose hash appears among the debs, the
per-group hash search finds exactly that key. -/
theorem findHashMatch_single {V : Type} (k : AptlyKey V) (l : List (OriginDeb V))
    (h : ∃ p ∈ l, k.hash = p.aptlyHash) : findHashMatch [k] l = some k := by
  induction l with
  | nil => simp at h
  | cons p0 rest ih =>
    unfold findHashMatch
    rw [List.findSome?_cons]
    cases hc : List.find? (fun a => a.hash == p0.aptlyHash) [k] with
    | some found =>
      have : found = k := by
        have := List.mem_of_find?_eq_some hc
        simpa using this
      rw [this]
    | none =>
      rcases h with ⟨p, hp, hph⟩
      rcases List.mem_cons.mp hp with rfl | hp
      · exfalso
        have : (k.hash == p.aptlyHash) = true := by simpa using hph
        simp [List.find?, this] at hc
      · exact ih ⟨p, hp, hph⟩

/-- The arch-independent sync step is silent when the target holds exactly
the newest origin build. -/
theorem binaryInDepSync_insync {V : Type} [LinearOrder V] (groups : GroupList V)
    (origin : OriginPackage V) (aptly : AptlyPackage V) (dn : OriginDeb V)
    (k : AptlyKey V) (hg : isGroupingOf origin.debs groups)
    (hn : origin.newest = some dn) (hk : aptly.keys = [k])
    (hh : k.hash = dn.aptlyHash) (hv : k.version = dn.version) :
    BinaryInDepSyncer.sync groups origin aptly = .ok [] := by
  obtain ⟨hnodup, hgroups, hcover⟩ := hg
  have hstep : ∀ g ∈ groups, (indepGroupStep aptly g).2 = [] := by
    intro g hgm
    obtain ⟨hfilter, hne⟩ := hgroups g hgm
    unfold indepGroupStep
    cases hfm : findHashMatch aptly.keys g.2 with
    | some found => rfl
    | none =>
      cases hg2 : g.2 with
      | nil => rfl
      | cons d0 rest =>
        have hd0 : d0 ∈ origin.debs ∧ d0.version = g.1.2 := by
          have hmem : d0 ∈ g.2 := hg2 ▸ List.mem_cons_self _ _
          rw [hfilter] at hmem
          have hm := List.mem_filter.mp hmem
          have := hm.2
          simp only [Bool.and_eq_true, decide_eq_true_eq] at this
          exact ⟨hm.1, this.2⟩
        have hall : (aptly.keys.all fun a => decide (a.version < d0.version)) = false := by
          rw [hk]
          simp only [List.all_cons, List.all_nil, Bool.and_true]
          rw [decide_eq_false]
          exact not_lt_of_le (hv ▸ newest_version_isMax origin dn hn d0 hd0.1)
        simp only [hall, Bool.false_eq_true, if_false]
        cases List.find? (fun a => decide (a.version = d0.version)) aptly.keys with
        | some found => rfl
        | none => rfl
  have hadds : ((groups.map (indepGroupStep aptly)).map Prod.snd).flatten = [] := by
    rw [List.flatten_eq_nil_iff]
    intro l hl
    rcases List.mem_map.mp hl with ⟨st, hst, rfl⟩
    rcases List.mem_map.mp hst with ⟨g, hgm, rfl⟩
    exact hstep g hgm
  have hkeep : k ∈ ((groups.map (indepGroupStep aptly)).map Prod.fst).flatten := by
    have hdnmem : dn ∈ origin.debs := newest_mem origin dn hn
    have hkey : (dn.fromSource, dn.version) ∈ groups.map Prod.fst := hcover dn hdnmem
    rcases List.mem_map.mp hkey with ⟨g, hgm, hgkey⟩
    obtain ⟨hfilter, hne⟩ := hgroups g hgm
    have hdng : dn ∈ g.2 := by
      rw [hfilter]
      refine List.mem_filter.mpr ⟨hdnmem, ?_⟩
      rw [hgkey]
      simp
    have hfm : findHashMatch aptly.keys g.2 = some k := by
      rw [hk]
      exact findHashMatch_single k g.2 ⟨dn, hdng, hh⟩
    have hfst : (indepGroupStep aptly g).1 = [k] := by
      unfold indepGroupStep
      rw [hfm]
    refine List.mem_flatten.mpr ⟨[k], ?_, List.mem_singleton.mpr rfl⟩
    rw [← hfst]
    exact List.mem_map_of_mem Prod.fst (List.mem_map_of_mem (indepGroupStep aptly) hgm)
  have hrem : (aptly.keys.filter
      (fun a => !(decide (a ∈ ((groups.map (indepGroupStep aptly)).map Prod.fst).flatten)) &&
        decide (a.version < dn.version))) = [] := by
    rw [hk]
    have h1 : (decide (k ∈ ((groups.map (indepGroupStep aptly)).map Prod.fst).flatten)) =
        true := decide_eq_true hkeep
    simp only [List.filter_cons, h1, Bool.not_true, Bool.false_and, Bool.false_eq_true,
      if_false, List.filter_nil]
  unfold BinaryInDepSyncer.sync
  rw [hn]
  show Except.ok
      (((groups.map (indepGroupStep aptly)).map Prod.snd).flatten ++
        (aptly.keys.filter
          (fun a => !(decide (a ∈ ((groups.map (indepGroupStep aptly)).map Prod.fst).flatten)) &&
            decide (a.version < dn.version))).map SyncAction.removeAptly) = Except.ok []
  rw [hadds, hrem]
  rfl

/-- The two content sides are in sync: identical name sequences per class
(and per architecture), with each shared name satisfying its class's
in-sync condition. -/
def InSync {V : Type} [LinearOrder V] (origin : OriginContent V)
    (aptly : AptlyContent V) (grouping : OriginPackage V → GroupList V) : Prop :=
  (∀ arch : String,
    List.Forall₂ pDep (getArchMap origin.binaryArch arch) (getArchMap aptly.binaryArch arch)) ∧
  List.Forall₂ (pIndep grouping) origin.binaryIndep aptly.binaryIndep ∧
  List.Forall₂ pSrc origin.sources aptly.sources

/-- C7: the engine run on an in-sync origin/target pair computes an empty
action list, for every architecture iteration order and every valid
grouping choice. -/
theorem claim_C7 {V : Type} [LinearOrder V] (origin : OriginContent V)
    (aptly : AptlyContent V) (archOrder : List String)
    (grouping : OriginPackage V → GroupList V)
    (h : InSync origin aptly grouping) :
    engineSync origin aptly archOrder grouping = .ok [] := by
  obtain ⟨harch, hindep, hsrc⟩ := h
  have hbin : runArchList origin aptly archOrder = .ok [] := by
    induction archOrder with
    | nil => rfl
    | cons arch rest ih =>
      simp only [runArchList]
      have hstep : archStep origin aptly arch = .ok [] := by
        apply syncPackages_ok_nil
        refine List.Forall₂.imp ?_ (harch arch)
        rintro o a ⟨heq, dn, kn, h1, h2, hh⟩
        exact ⟨heq, binaryDepSync_insync o.2 a.2 dn kn h1 h2 hh⟩
      rw [hstep, ih]
      rfl
  have hi : syncPackages (indepSyncer grouping) origin.binaryIndep aptly.binaryIndep =
      .ok [] := by
    apply syncPackages_ok_nil
    refine List.Forall₂.imp ?_ hindep
    rintro o a ⟨heq, hgr, dn, k, h1, h2, hh, hv⟩
    exact ⟨heq, binaryInDepSync_insync (grouping o.2) o.2 a.2 dn k hgr h1 h2 hh hv⟩
  have hs : syncPackages (srcSyncer V) origin.sources aptly.sources = .ok [] := by
    apply syncPackages_ok_nil
    refine List.Forall₂.imp ?_ hsrc
    rintro o a ⟨heq, d, k, h1, h2, hh⟩
    exact ⟨heq, sourceSync_insync o.2 a.2 d k h1 h2 hh⟩
  unfold engineSync
  rw [hbin, hi, hs]
  rfl

/-- C7, witness: Scenario 2 — origin and target both hold
`foo/amd64/1.0/aaaa`; the computed action list is empty. -/
theorem claim_C7_witness :
    engineSync (V := ℕ)
      ⟨[("amd64", [("foo", ⟨[⟨"foo", 1, "amd64", ["foo.deb"], "foo-src", "aaaa"⟩]⟩)])], [], []⟩
      ⟨[("amd64", [("foo", ⟨[⟨"foo", 1, "amd64", "aaaa"⟩]⟩)])], [], []⟩
      ["amd64"] canonicalGrouping = .ok [] := by
  apply claim_C7
  refine ⟨?_, List.Forall₂.nil, List.Forall₂.nil⟩
  intro arch
  by_cases hc : "amd64" = arch
  · subst hc
    refine List.Forall₂.cons ⟨rfl, ?_⟩ List.Forall₂.nil
    exact ⟨⟨"foo", 1, "amd64", ["foo.deb"], "foo-src", "aaaa"⟩, ⟨"foo", 1, "amd64", "aaaa"⟩,
      rfl, rfl, rfl⟩
  · simp only [getArchMap, alookup, if_neg hc]
    exact List.Forall₂.nil

/-! ### Claim C8: determinism and architecture iteration order -/

/-- The actions one architecture contributes on a successful run. -/
def archExtract {V : Type} [LinearOrder V] (origin : OriginContent V)
    (aptly : AptlyContent V) (arch : String) : List (SyncAction V) :=
  match archStep origin aptly arch with
  | .ok h => h
  | .error _ => []

/-- A successful per-architecture loop means every architecture's step
succeeded, and the result is the concatenation of the per-architecture
action blocks in iteration order. -/
theorem runArchList_ok {V : Type} [LinearOrder V] (origin : OriginContent V)
    (aptly : AptlyContent V) :
    ∀ (order : List String) (b : List (SyncAction V)),
      runArchList origin aptly order = .ok b →
      (∀ arch ∈ order, ∃ h, archStep origin aptly arch = .ok h) ∧
      b = order.flatMap (archExtract origin aptly) := by
  intro order
  induction order with
  | nil =>
    intro b hb
    have hb' : (Except.ok [] : Except SyncErr (List (SyncAction V))) = .ok b := hb
    constructor
    · intro a ha; simp at ha
    · simp [← Except.ok.inj hb']
  | cons arch rest ih =>
    intro b hb
    simp only [runArchList] at hb
    cases hs : archStep origin aptly arch with
    | error e =>
      rw [hs] at hb
      have hb' : (Except.error e : Except SyncErr (List (SyncAction V))) = .ok b := hb
      exact Except.noConfusion hb'
    | ok h =>
      rw [hs] at hb
      cases hr : runArchList origin aptly rest with
      | error e =>
        rw [hr] at hb
        have hb' : (Except.error e : Except SyncErr (List (SyncAction V))) = .ok b := hb
        exact Except.noConfusion hb'
      | ok t =>
        rw [hr] at hb
        have hb' : (Except.ok (h ++ t) : Except SyncErr (List (SyncAction V))) = .ok b := hb
        obtain ⟨hall, hbt⟩ := ih t hr
        constructor
        · intro a ha
          rcases List.mem_cons.mp ha with rfl | ha
          · exact ⟨h, hs⟩
          · exact hall a ha
        · rw [← Except.ok.inj hb', List.flatMap_cons, ← hbt]
          congr 1
          unfold archExtract
          rw [hs]
  -- (the remaining goals are closed in each branch)

/-- Conversely, when every architecture's step succeeds the loop succeeds
with the concatenated blocks. -/
theorem runArchList_ok_of_forall {V : Type} [LinearOrder V] (origin : OriginContent V)
    (aptly : AptlyContent V) :
    ∀ order : List String,
      (∀ arch ∈ order, ∃ h, archStep origin aptly arch = .ok h) →
      runArchList origin aptly order =
        .ok (order.flatMap (archExtract origin aptly)) := by
  intro order
  induction order with
  | nil => intro _; rfl
  | cons arch rest ih =>
    intro hall
    obtain ⟨h, hs⟩ := hall arch (List.mem_cons_self arch rest)
    have hrest := ih (fun a ha => hall a (List.mem_cons.mpr (Or.inr ha)))
    simp only [runArchList]
    rw [hs, hrest]
    have hex : archExtract origin aptly arch = h := by
      unfold archExtract
      rw [hs]
    show Except.ok (h ++ rest.flatMap (archExtract origin aptly)) = _
    rw [List.flatMap_cons, hex]

/-- A two-architecture origin against an empty target. -/
def c8origin : OriginContent ℕ :=
  ⟨[("amd64", [("foo", ⟨[⟨"foo", 1, "amd64", ["foo.deb"], "s", "aaaa"⟩]⟩)]),
    ("arm64", [("goo", ⟨[⟨"goo", 1, "arm64", ["goo.deb"], "s", "bbbb"⟩]⟩)])], [], []⟩

/-- The empty target content. -/
def c8aptly : AptlyContent ℕ := ⟨[], [], []⟩

/-- C8, counterexample.  The claim says any two runs on the same snapshots
produce byte-for-byte the same action list, including the relative order
of actions from different architectures.  The architecture set is a Rust
`HashSet`, whose iteration order is unspecified: both orders below are
iterations of the same set, and the two runs produce different action
lists (the same two adds, in different order). -/
theorem claim_C8_counterexample :
    List.Perm ["amd64", "arm64"] (archSet c8origin c8aptly) ∧
    List.Perm ["arm64", "amd64"] (archSet c8origin c8aptly) ∧
    engineSync c8origin c8aptly ["amd64", "arm64"] canonicalGrouping =
      .ok [SyncAction.addDeb "foo" "aaaa" ["foo.deb"] MatchPoolPackageBy.keyOnly,
           SyncAction.addDeb "goo" "bbbb" ["goo.deb"] MatchPoolPackageBy.keyOnly] ∧
    engineSync c8origin c8aptly ["arm64", "amd64"] canonicalGrouping =
      .ok [SyncAction.addDeb "goo" "bbbb" ["goo.deb"] MatchPoolPackageBy.keyOnly,
           SyncAction.addDeb "foo" "aaaa" ["foo.deb"] MatchPoolPackageBy.keyOnly] ∧
    [SyncAction.addDeb "foo" "aaaa" ["foo.deb"] MatchPoolPackageBy.keyOnly,
     SyncAction.addDeb "goo" "bbbb" ["goo.deb"] MatchPoolPackageBy.keyOnly] ≠
      ([SyncAction.addDeb "goo" "bbbb" ["goo.deb"] MatchPoolPackageBy.keyOnly,
        SyncAction.addDeb "foo" "aaaa" ["foo.deb"] MatchPoolPackageBy.keyOnly] :
          List (SyncAction ℕ)) := by
  refine ⟨by decide, by decide, ?_, ?_, by decide⟩
  · simp +decide [engineSync, c8origin, c8aptly, runArchList, archStep, getArchMap,
      alookup, syncPackages, depSyncer, BinaryDepSyncer.add, OriginPackage.newest,
      addDebAction, Bind.bind, Except.bind]
  · simp +decide [engineSync, c8origin, c8aptly, runArchList, archStep, getArchMap,
      alookup, syncPackages, depSyncer, BinaryDepSyncer.add, OriginPackage.newest,
      addDebAction, Bind.bind, Except.bind]

/-- C8, amended: for fixed snapshots the engine's output is a function of
the inputs together with the iteration orders of the internal hash
containers.  Runs whose architecture iteration orders are permutations of
each other (with the same grouping choice) produce action lists that are
permutations of each other; the arch-independent and source segments are
identical. -/
theorem claim_C8 {V : Type} [LinearOrder V] (origin : OriginContent V)
    (aptly : AptlyContent V) (grouping : OriginPackage V → GroupList V)
    (o1 o2 : List String) (l1 : List (SyncAction V)) (hperm : o1.Perm o2)
    (h1 : engineSync origin aptly o1 grouping = .ok l1) :
    ∃ l2, engineSync origin aptly o2 grouping = .ok l2 ∧ l1.Perm l2 := by
  unfold engineSync at h1
  cases hb : runArchList origin aptly o1 with
  | error e =>
    rw [hb] at h1
    have h1' : (Except.error e : Except SyncErr (List (SyncAction V))) = .ok l1 := h1
    exact Except.noConfusion h1'
  | ok bin1 =>
    rw [hb] at h1
    cases hi : syncPackages (indepSyncer grouping) origin.binaryIndep aptly.binaryIndep with
    | error e =>
      rw [hi] at h1
      have h1' : (Except.error e : Except SyncErr (List (SyncAction V))) = .ok l1 := h1
      exact Except.noConfusion h1'
    | ok indep =>
      rw [hi] at h1
      cases hs : syncPackages (srcSyncer V) origin.sources aptly.sources with
      | error e =>
        rw [hs] at h1
        have h1' : (Except.error e : Except SyncErr (List (SyncAction V))) = .ok l1 := h1
        exact Except.noConfusion h1'
      | ok src =>
        rw [hs] at h1
        have h1' : (Except.ok (bin1 ++ indep ++ src) :
            Except SyncErr (List (SyncAction V))) = .ok l1 := h1
        obtain ⟨hall, hbin1⟩ := runArchList_ok origin aptly o1 bin1 hb
        have hall2 : ∀ arch ∈ o2, ∃ h, archStep origin aptly arch = .ok h :=
          fun a ha => hall a (hperm.mem_iff.mpr ha)
        have hb2 := runArchList_ok_of_forall origin aptly o2 hall2
        refine ⟨o2.flatMap (archExtract origin aptly) ++ indep ++ src, ?_, ?_⟩
        · unfold engineSync
          rw [hb2, hi, hs]
          rfl
        · rw [← Except.ok.inj h1', hbin1]
          exact ((List.Perm.flatMap_right (archExtract origin aptly) hperm).append_right
            indep).append_right src

/-- C8, witness: the two valid runs of the counterexample's snapshots are
permutations of each other. -/
theorem claim_C8_witness :
    ∃ l2, engineSync c8origin c8aptly ["arm64", "amd64"] canonicalGrouping = .ok l2 ∧
      List.Perm
        [SyncAction.addDeb "foo" "aaaa" ["foo.deb"] MatchPoolPackageBy.keyOnly,
         SyncAction.addDeb "goo" "bbbb" ["goo.deb"] MatchPoolPackageBy.keyOnly] l2 :=
  claim_C8 c8origin c8aptly canonicalGrouping ["amd64", "arm64"] ["arm64", "amd64"]
    [SyncAction.addDeb "foo" "aaaa" ["foo.deb"] MatchPoolPackageBy.keyOnly,
     SyncAction.addDeb "goo" "bbbb" ["goo.deb"] MatchPoolPackageBy.keyOnly]
    (by decide)
    (by simp +decide [engineSync, c8origin, c8aptly, runArchList, archStep, getArchMap,
      alookup, syncPackages, depSyncer, BinaryDepSyncer.add, OriginPackage.newest,
      addDebAction, Bind.bind, Except.bind])

end AptlyRestTools
